import Mathlib

/-!
Verification development for the `ccs` repository: CCS terms, the SOS
successor relation, the lazy LTS iterators, the naive fixpoint
bisimulation engine, the Paige-Tarjan partition-refinement engine and the
intrusive doubly-linked list primitive, shallowly embedded from the Rust
sources (`src/ccs.rs`, `src/lts.rs`, `src/bisimilarity/naive.rs`,
`src/bisimilarity/paige_tarjan.rs`, `src/bisimilarity/list.rs`).
-/

namespace CcsSpec

/-- The silent action, `const TAU: &str = "τ"` in `src/ccs.rs`. -/
def TAU : String := "τ"

/-- The one-character string holding the prime mark (ASCII 39), used by
`actions_complementary`, which in Rust is written with `format!("{}'", b)`. -/
def primeStr : String := String.singleton (Char.ofNat 39)

/-- CCS process terms, mirroring `enum Process` in `src/ccs.rs`.
`ActionLabel` and `ProcessName` are reference-counted strings in Rust and
compare by value, so both are embedded as `String`. -/
inductive Process where
  | deadlock : Process
  | processName (n : String) : Process
  | action (a : String) (p : Process) : Process
  | nonDetChoice (l r : Process) : Process
  | parallel (l r : Process) : Process
  | rename (p : Process) (b a : String) : Process
  | restriction (p : Process) (a : String) : Process
deriving DecidableEq, Repr, Inhabited

/-- A CCS system, mirroring `struct CCSSystem` in `src/ccs.rs`.  The Rust
`HashMap<ProcessName, Process>` is embedded as an association list with
first-match lookup (HashMap keys are unique, so any entry order gives the
same map). -/
structure CCSSystem where
  name : String
  processes : List (String × Process)
  destinct_process : String
deriving DecidableEq, Repr

/-- `system.processes().get(name)`: first-match association-list lookup. -/
def CCSSystem.lookup (S : CCSSystem) (n : String) : Option Process :=
  (S.processes.find? (fun pr => pr.1 == n)).map Prod.snd

/-- The error kinds of `src/error.rs` that the verified core can produce. -/
inductive CCSError where
  | overlappingProcess (p : String) : CCSError
  | resultsNotAvailable : CCSError
deriving DecidableEq, Repr

/-- `CCSSystem::zip` from `src/ccs.rs`: fails on the first process name
defined in both systems (the Rust loop follows HashMap order; which
overlapping name is reported is unspecified, but whether an error occurs is
not), otherwise concatenates the definition maps (`processes.extend`) and
keeps `system1`'s distinguished process. -/
def CCSSystem.zip (system1 system2 : CCSSystem) : Except CCSError CCSSystem :=
  match system1.processes.find?
      (fun pr => (system2.processes.find? (fun qr => qr.1 == pr.1)).isSome) with
  | some pr => .error (.overlappingProcess pr.1)
  | none =>
      .ok { name := system1.name ++ "+" ++ system2.name,
            processes := system1.processes ++ system2.processes,
            destinct_process := system1.destinct_process }

/-- `Process::actions_complementary` from `src/ccs.rs`:
`**a == format!("{}'", b) || **b == format!("{}'", a)`. -/
def actions_complementary (a b : String) : Bool :=
  a == b ++ primeStr || b == a ++ primeStr

/-- Insert into a list unless already present (semantics of inserting into
the Rust `HashSet`, with first-insertion order fixed as the list order;
HashSet iteration order is unspecified in Rust, and no theorem below
depends on the order, only on membership and duplicate-freeness). -/
def insertD {α : Type} [DecidableEq α] (l : List α) (x : α) : List α :=
  if x ∈ l then l else l ++ [x]

/-- Insert every element of `xs` (in order) into `l`, skipping duplicates:
the semantics of `set.extend(iter)` on a Rust `HashSet`. -/
def insertAllD {α : Type} [DecidableEq α] (l xs : List α) : List α :=
  xs.foldl insertD l

/-- Deduplicate keeping first occurrences: `insertAllD [] xs`. -/
def dedupKeepFirst {α : Type} [DecidableEq α] (xs : List α) : List α :=
  insertAllD [] xs

/-- `Process::direct_successors_helper` from `src/ccs.rs`, with an explicit
fuel bound on the recursion depth (the Rust recursion is not structurally
terminating: `ProcessName(n)` recurses into the definition of `n`, and a
specification such as `A = A` makes the Rust function diverge; the function
converges for some fuel exactly when the Rust recursion tree is finite, and
running out of fuel returns `none`).  The accumulator is the mutable
`HashSet` threaded through the Rust code. -/
def direct_successors_helper :
    Nat → CCSSystem → Process → List (String × Process) →
      Option (List (String × Process))
  | 0, _, _, _ => none
  | fuel + 1, S, t, acc =>
      match t with
      | .deadlock => some acc
      | .processName n =>
          match S.lookup n with
          | some p => direct_successors_helper fuel S p acc
          | none => some acc
      | .action a p => some (insertD acc (a, p))
      | .nonDetChoice l r => do
          let acc' ← direct_successors_helper fuel S l acc
          direct_successors_helper fuel S r acc'
      | .parallel l r => do
          let ls ← direct_successors_helper fuel S l []
          let rs ← direct_successors_helper fuel S r []
          let with_left_succ := ls.map (fun ap => (ap.1, Process.parallel ap.2 r))
          let with_right_succ := rs.map (fun ap => (ap.1, Process.parallel l ap.2))
          let com3_succ := ls.flatMap (fun ap =>
            rs.filterMap (fun bp =>
              if actions_complementary ap.1 bp.1 then
                some (TAU, Process.parallel ap.2 bp.2)
              else none))
          some (insertAllD (insertAllD (insertAllD acc with_left_succ) with_right_succ) com3_succ)
      | .rename p b a => do
          let ts ← direct_successors_helper fuel S p []
          some (insertAllD acc (ts.map (fun lp =>
            if lp.1 == a then (b, Process.rename lp.2 b a)
            else (lp.1, Process.rename lp.2 b a))))
      | .restriction p a => do
          let ts ← direct_successors_helper fuel S p []
          some (insertAllD acc ((ts.filter (fun lp =>
            !(lp.1 == a) && !actions_complementary lp.1 a)).map
              (fun lp => (lp.1, Process.restriction lp.2 a))))

/-- `Process::direct_successors` from `src/ccs.rs` (fuelled). -/
def direct_successors (fuel : Nat) (S : CCSSystem) (t : Process) :
    Option (List (String × Process)) :=
  direct_successors_helper fuel S t []

/-- The SOS one-step transition relation of CCS, written down from the
specification's successor rules (section 4.1): this is the spec-side
description that `direct_successors` is compared against. -/
inductive Step (S : CCSSystem) : Process → String → Process → Prop where
  | name {n p l t'} : S.lookup n = some p → Step S p l t' →
      Step S (.processName n) l t'
  | act {a p} : Step S (.action a p) a p
  | choiceL {l r a t'} : Step S l a t' → Step S (.nonDetChoice l r) a t'
  | choiceR {l r a t'} : Step S r a t' → Step S (.nonDetChoice l r) a t'
  | parL {l r a l'} : Step S l a l' → Step S (.parallel l r) a (.parallel l' r)
  | parR {l r a r'} : Step S r a r' → Step S (.parallel l r) a (.parallel l r')
  | parSync {l r a b l' r'} : Step S l a l' → Step S r b r' →
      actions_complementary a b = true →
      Step S (.parallel l r) TAU (.parallel l' r')
  | renameHit {p a b p'} : Step S p a p' →
      Step S (.rename p b a) b (.rename p' b a)
  | renameMiss {p l a b p'} : Step S p l p' → l ≠ a →
      Step S (.rename p b a) l (.rename p' b a)
  | restrict {p l a p'} : Step S p l p' → l ≠ a →
      actions_complementary l a = false →
      Step S (.restriction p a) l (.restriction p' a)

/-! ## LTS iterators (`src/lts.rs`) -/

/-- One transition of the LTS: `type Transition = (Process, ActionLabel, Process)`. -/
abbrev Transition := Process × String × Process

/-- The run of `LtsStateIterator` (`src/lts.rs`, `impl Iterator for
LtsStateIterator`) with `allow_duplicates = false`, as the list of states it
yields.  `fq` bounds the number of `next()` calls (the queue length on any
finite run), `fs` is the fuel for `direct_successors`.  Each `next()` pops
the front of `undiscovered_states`, pushes the successors that are neither
discovered nor equal to the popped item (`Vec::dedup` drops consecutive
duplicates, modelled by `List.destutter (· ≠ ·)`; the Rust `HashSet`
iteration supplies the successors in an unspecified order, fixed here to the
`direct_successors` list order), marks the item discovered and yields it —
without checking whether the popped item was already discovered. -/
def statesRunAux :
    Nat → Nat → CCSSystem → List Process → List Process → Option (List Process)
  | _, _, _, _, [] => some []
  | 0, _, _, _, _ :: _ => none
  | fq + 1, fs, S, discovered, item :: rest => do
      let succs ← direct_successors fs S item
      let ds := List.destutter (fun a b => a ≠ b)
        ((succs.map Prod.snd).filter
          (fun s => !discovered.contains s && !(s == item)))
      let tl ← statesRunAux fq fs S (insertD discovered item) (rest ++ ds)
      some (item :: tl)

/-- `lts.states(false)` run to completion from `Name(destinct_process)`. -/
def statesRun (fq fs : Nat) (S : CCSSystem) : Option (List Process) :=
  statesRunAux fq fs S [] [Process.processName S.destinct_process]

/-- The run of `LtsTransitionIterator` (`src/lts.rs`) with
`allow_duplicates = false`, as the list of transitions it yields.  The
cached-transitions queue is always drained before the next state is popped,
so the run is: for each popped state (same queue discipline as the state
iterator, but without the `Vec::dedup` call), emit all its outgoing
transitions. -/
def transRunAux :
    Nat → Nat → CCSSystem → List Process → List Process →
      Option (List Transition)
  | _, _, _, _, [] => some []
  | 0, _, _, _, _ :: _ => none
  | fq + 1, fs, S, discovered, item :: rest => do
      let succs ← direct_successors fs S item
      let ds := (succs.map Prod.snd).filter
        (fun s => !discovered.contains s && !(s == item))
      let tl ← transRunAux fq fs S (insertD discovered item) (rest ++ ds)
      some ((succs.map (fun lp => (item, lp.1, lp.2))) ++ tl)

/-- `lts.transitions(false)` run to completion. -/
def transRun (fq fs : Nat) (S : CCSSystem) : Option (List Transition) :=
  transRunAux fq fs S [] [Process.processName S.destinct_process]

/-! ## Naive fixpoint engine (`src/bisimilarity/naive.rs`) -/

/-- `pub type Relation = Vec<(Rc<Process>, Rc<Process>)>` from
`src/bisimilarity/mod.rs` (Rc compares by value). -/
abbrev Relation := List (Process × Process)

/-- The out-transition list of a state: in `NaiveFixpoint::new` every LTS
transition is appended to its source state's transition list in iteration
order. -/
def transOf (ts : List Transition) (s : Process) : List Transition :=
  ts.filter (fun tr => tr.1 == s)

/-- `NaiveFixpoint::is_in_f`: every move of `s` is matched by an
equally-labelled move of `t` into a pair already in the relation, and
symmetrically. -/
def is_in_f (ts : List Transition) (rel : Relation) (s t : Process) : Bool :=
  ((transOf ts s).all fun strans =>
    (transOf ts t).any fun ttrans =>
      ttrans.2.1 == strans.2.1 && rel.contains (strans.2.2, ttrans.2.2)) &&
  ((transOf ts t).all fun ttrans =>
    (transOf ts s).any fun strans =>
      ttrans.2.1 == strans.2.1 && rel.contains (ttrans.2.2, strans.2.2))

/-- `NaiveFixpoint::apply_f`: keep the pairs satisfying `is_in_f` (the Rust
code maps each pair through `state_map` and back to the process
descriptions, which is the identity on the pair). -/
def apply_f (ts : List Transition) (rel : Relation) : Relation :=
  rel.filter (fun p => is_in_f ts rel p.1 p.2)

/-- `NaiveFixpoint::init_relation`: for every state `s`, push `(s, t)` for
every other state `t`, then push `(s, s)`. -/
def init_relation (states : List Process) : Relation :=
  states.flatMap (fun s =>
    (states.filter (fun t => !(s == t))).map (fun t => (s, t)) ++ [(s, s)])

/-- The refinement loop of `NaiveFixpoint::bisimulation`: repeatedly replace
the relation by `apply_f` of it while its length strictly decreases.
Returns the final relation together with the number of `refine()` calls.
The fuel only serves structural termination; `fix_loop_le` below shows any
fuel above the square of the state count is enough. -/
def fix_loop : Nat → List Transition → Relation → Option (Relation × Nat)
  | 0, _, _ => none
  | fuel + 1, ts, rel =>
      let rel' := apply_f ts rel
      if rel'.length < rel.length then
        (fix_loop fuel ts rel').map (fun p => (p.1, p.2 + 1))
      else
        some (rel', 1)

/-- The engine state of `struct NaiveFixpoint` (`done` flag plus the data
the verified operations read; the per-state transition lists are recovered
from the transition list by `transOf`). -/
structure NaiveFixpoint where
  done : Bool
  transitions : List Transition
  relation : Relation

/-- `NaiveFixpoint::bisimulation` (the Rust function asserts `!self.done`
on entry; timing is dropped).  Returns the optionally collected relation and
the updated engine. -/
def NaiveFixpoint.bisimulation (fuel : Nat) (e : NaiveFixpoint)
    (collect : Bool) : Option (Option Relation × NaiveFixpoint) :=
  (fix_loop fuel e.transitions e.relation).map fun r =>
    (if collect then some r.1 else none,
     { e with relation := r.1, done := true })

/-- `NaiveFixpoint::check`. -/
def NaiveFixpoint.check (e : NaiveFixpoint) (procs : Process × Process) :
    Except CCSError Bool :=
  if !e.done then .error .resultsNotAvailable
  else .ok (e.relation.contains procs)

/-! ## Paige-Tarjan engine (`src/bisimilarity/paige_tarjan.rs`)

The Rust engine is a pointer structure (`Rc<RefCell<_>>` nodes with
intrusive list links, `Weak` back-references and shared `Rc<RefCell<usize>>`
counter cells).  It is embedded with explicit identifiers: states,
transitions, blocks and counter cells are numbered, and the heaps are
functions from identifiers to node records.  `Weak::as_ptr` equality on live
blocks is identifier equality.  Every Rust `unwrap`/`assert!` failure
(a panic) is modelled as `none`. -/

abbrev StateId := Nat
abbrev TransId := Nat
abbrev BlockId := Nat
abbrev CellId := Nat

/-- `struct State` of `src/bisimilarity/paige_tarjan.rs` (the intrusive
link fields are represented by the lists that use them; `is_deadlock` is
only used by the dead constructor `PaigeTarjan::new` and is omitted). -/
structure PTState where
  process : Process
  in_transitions : List TransId
  out_transitions : List TransId
  mark3 : Bool
  mark5 : Bool
  count : CellId
  block_in_p : BlockId
deriving Inhabited

/-- `struct Transition` of `src/bisimilarity/paige_tarjan.rs` (`desc` is
kept as its label component, the only part the algorithm reads). -/
structure PTTrans where
  label : String
  lhs : StateId
  count : CellId
deriving Inhabited

/-- `struct Block` of `src/bisimilarity/paige_tarjan.rs`. -/
structure PTBlock where
  elements : List StateId
  children : List BlockId
  attached : Option BlockId
  upper_in_r : Option BlockId
deriving Inhabited

/-- `Block::new` / `Block::new_as_copy` (the copy distinction is only about
which intrusive link field is used and has no functional content). -/
def PTBlock.new : PTBlock :=
  { elements := [], children := [], attached := none, upper_in_r := none }

/-- `struct PaigeTarjan`: the engine state. -/
structure PaigeTarjan where
  done : Bool
  c_blocks : List BlockId
  r_blocks : List BlockId
  p_blocks : List BlockId
  labels : List String
  state_ids : List StateId
  states : StateId → PTState
  transes : TransId → PTTrans
  blocks : BlockId → PTBlock
  cells : CellId → Nat
  fresh_block : BlockId
  fresh_cell : CellId

/-- Pointwise update of an identifier-indexed heap. -/
def upd {α : Type} (f : Nat → α) (i : Nat) (v : α) : Nat → α :=
  fun j => if j = i then v else f j

/-- The allocation branch of the first pass of `PaigeTarjan::split`: the
P-block `d` has no attached scratch block yet, so allocate `d'`, attach it,
give it `d`'s R-parent, and append it to P and to the R-parent's children. -/
def splitAlloc (pt : PaigeTarjan) (d : BlockId) : Option PaigeTarjan := do
  let dP := pt.fresh_block
  let pt := { pt with
    blocks := upd pt.blocks dP PTBlock.new,
    fresh_block := pt.fresh_block + 1 }
  let pt := { pt with
    blocks := upd pt.blocks d { pt.blocks d with attached := some dP } }
  let upper ← (pt.blocks d).upper_in_r
  let pt := { pt with
    blocks := upd pt.blocks dP { pt.blocks dP with upper_in_r := some upper } }
  let pt := { pt with p_blocks := pt.p_blocks ++ [dP] }
  pure { pt with
    blocks := upd pt.blocks upper
      { pt.blocks upper with children := (pt.blocks upper).children ++ [dP] } }

/-- The move at the end of each first-pass iteration of
`PaigeTarjan::split`: take `s` out of its current P-block and append it to
the elements of the scratch block `dP`. -/
def splitRelink (pt : PaigeTarjan) (s : StateId) (dP : BlockId) :
    PaigeTarjan :=
  let d := (pt.states s).block_in_p
  let pt := { pt with
    blocks := upd pt.blocks d
      { pt.blocks d with elements := (pt.blocks d).elements.erase s } }
  let pt := { pt with
    states := upd pt.states s { pt.states s with block_in_p := dP } }
  { pt with
    blocks := upd pt.blocks dP
      { pt.blocks dP with elements := (pt.blocks dP).elements ++ [s] } }

/-- One iteration of the first pass of `PaigeTarjan::split`, for the
predecessor state `s`: look up its P-block `d`; if `d` has no attached
scratch block yet, run the allocation branch and remember `d`; then move
`s` from `d` to the attached block. -/
def splitMove (acc : PaigeTarjan × List BlockId) (s : StateId) :
    Option (PaigeTarjan × List BlockId) := do
  let (pt, sbs) := acc
  let d := (pt.states s).block_in_p
  let (pt, sbs) ←
    if (pt.blocks d).attached = none then do
      let pt ← splitAlloc pt d
      pure (pt, sbs ++ [d])
    else
      pure (pt, sbs)
  let dP ← (pt.blocks d).attached
  pure (splitRelink pt s dP, sbs)

/-- One iteration of the second pass of `PaigeTarjan::split`, for the
remembered block `d`: clear the attachment; drop the block from P and from
its R-parent's children if it was emptied; otherwise append the R-parent to
C if it now has exactly two children. -/
def splitCleanup (pt : PaigeTarjan) (d : BlockId) : Option PaigeTarjan := do
  let pt := { pt with
    blocks := upd pt.blocks d { pt.blocks d with attached := none } }
  if (pt.blocks d).elements = [] then do
    let pt := { pt with p_blocks := pt.p_blocks.erase d }
    let u ← (pt.blocks d).upper_in_r
    pure { pt with
      blocks := upd pt.blocks u
        { pt.blocks u with children := (pt.blocks u).children.erase d } }
  else do
    let sP ← (pt.blocks d).upper_in_r
    if (pt.blocks sP).children.length = 2 then
      pure { pt with c_blocks := pt.c_blocks ++ [sP] }
    else
      pure pt

/-- `PaigeTarjan::split` (`src/bisimilarity/paige_tarjan.rs`): the first
pass over the predecessor states, then the second pass over the blocks the
first pass remembered. -/
def PaigeTarjan.split (pt0 : PaigeTarjan) (pred : List StateId) :
    Option PaigeTarjan := do
  let (pt, splitblocks) ← pred.foldlM splitMove (pt0, [])
  splitblocks.foldlM splitCleanup pt

/-- One in-transition of step 3 of `PaigeTarjan::refine`: if the label
matches, increment the source state's counter cell and collect the source
into the predecessor list unless its `mark3` is set. -/
def refineStep3Trans (label : String) (acc : PaigeTarjan × List StateId)
    (tId : TransId) : PaigeTarjan × List StateId :=
  let (pt, preds) := acc
  if (pt.transes tId).label == label then
    let y := (pt.transes tId).lhs
    let pt := { pt with
      cells := upd pt.cells ((pt.states y).count)
        (pt.cells ((pt.states y).count) + 1) }
    if (pt.states y).mark3 then (pt, preds)
    else
      ({ pt with states := upd pt.states y { pt.states y with mark3 := true } },
       preds ++ [y])
  else (pt, preds)

/-- Step 3 of `PaigeTarjan::refine` for one element `s'` of `B`: walk the
in-transitions of `s'` with the current label. -/
def refineStep3State (label : String) (acc : PaigeTarjan × List StateId)
    (sP : StateId) : PaigeTarjan × List StateId :=
  ((acc.1.states sP).in_transitions).foldl (refineStep3Trans label) acc

/-- One in-transition of step 5 of `PaigeTarjan::refine`: collect the source
`y` of a label-matching in-transition whose state counter equals the
transition's counter cell, unless `mark5` is set. -/
def refineStep5Trans (label : String) (acc : PaigeTarjan × List StateId)
    (tId : TransId) : PaigeTarjan × List StateId :=
  let (pt, preds) := acc
  if (pt.transes tId).label == label then
    let y := (pt.transes tId).lhs
    let transCount := pt.cells ((pt.transes tId).count)
    let lhsCount := pt.cells ((pt.states y).count)
    if lhsCount == transCount && !(pt.states y).mark5 then
      ({ pt with states := upd pt.states y { pt.states y with mark5 := true } },
       preds ++ [y])
    else (pt, preds)
  else (pt, preds)

/-- Step 5 of `PaigeTarjan::refine` for one element `s'` of the copy block
`B'`. -/
def refineStep5State (label : String) (acc : PaigeTarjan × List StateId)
    (sP : StateId) : PaigeTarjan × List StateId :=
  ((acc.1.states sP).in_transitions).foldl (refineStep5Trans label) acc

/-- One in-transition of step 7 of `PaigeTarjan::refine`: if the label
matches, assert the transition's counter is positive (a panic, modelled as
`none`, otherwise), decrement it, and re-alias the transition's counter to
its source state's current counter cell. -/
def refineStep7Trans (label : String) (pt : PaigeTarjan) (tId : TransId) :
    Option PaigeTarjan := do
  if (pt.transes tId).label == label then
    let c := (pt.transes tId).count
    if pt.cells c = 0 then none
    else
      let pt := { pt with cells := upd pt.cells c (pt.cells c - 1) }
      pure { pt with
        transes := upd pt.transes tId
          { pt.transes tId with count := (pt.states ((pt.transes tId).lhs)).count } }
  else pure pt

/-- Step 7 of `PaigeTarjan::refine` for one element `s'` of `B'`. -/
def refineStep7State (label : String) (pt : PaigeTarjan) (sP : StateId) :
    Option PaigeTarjan :=
  ((pt.states sP).in_transitions).foldlM (refineStep7Trans label) pt

/-- The cleanup at the end of a label iteration of `PaigeTarjan::refine`:
reset `mark3`, `mark5` and give a fresh zero counter cell — but only for the
elements of `B'` (the states of the divider child `B`), not for the
predecessor states whose marks and counters were actually set in steps 3-6. -/
def refineCleanupState (pt : PaigeTarjan) (sP : StateId) : PaigeTarjan :=
  let fresh := pt.fresh_cell
  { pt with
    states := upd pt.states sP
      { pt.states sP with mark3 := false, mark5 := false, count := fresh },
    cells := upd pt.cells fresh 0,
    fresh_cell := fresh + 1 }

/-- One label iteration of the loop in `PaigeTarjan::refine` (steps 3-7 for
a fixed label `a` and divider child `b`). -/
def PaigeTarjan.refineLabel (pt : PaigeTarjan) (b : BlockId) (label : String) :
    Option PaigeTarjan := do
  -- 3. Calculate predecessors of B (b_prime snapshots B's current elements)
  let bPrime := (pt.blocks b).elements
  let (pt, pred_b) := bPrime.foldl (refineStep3State label) (pt, [])
  -- 4. split(B, P)
  let pt ← pt.split pred_b
  -- 5. Calculate the limited predecessors
  let (pt, limited_pred_b) := bPrime.foldl (refineStep5State label) (pt, [])
  -- 6. split(S \ B, P')
  let pt ← pt.split limited_pred_b
  -- 7. Update counters, then clean up markers of B's states
  let pt ← bPrime.foldlM (refineStep7State label) pt
  pure (bPrime.foldl refineCleanupState pt)

/-- `PaigeTarjan::refine`: pop a compound block from C, pick the smaller of
its first two children as divider child `B`, detach `B` into a fresh R-block,
re-append the compound block to C if it still has at least two children,
then run steps 3-7 for every label. -/
def PaigeTarjan.refine (pt : PaigeTarjan) : Option PaigeTarjan := do
  -- 1. Select divider
  let divider ← pt.c_blocks.head?
  let cRest := pt.c_blocks.tail
  let child1 ← ((pt.blocks divider).children)[0]?
  let child2 ← ((pt.blocks divider).children)[1]?
  let size1 := ((pt.blocks child1).elements).length
  let size2 := ((pt.blocks child2).elements).length
  let smaller := if size1 < size2 then child1 else child2
  -- 2. Update R
  let pt := { pt with
    c_blocks := cRest,
    blocks := upd pt.blocks divider
      { pt.blocks divider with
        children := (pt.blocks divider).children.erase smaller } }
  let b := smaller
  let sP := pt.fresh_block
  let pt := { pt with
    blocks := upd pt.blocks sP { PTBlock.new with children := [b] },
    fresh_block := pt.fresh_block + 1 }
  let pt := { pt with
    blocks := upd pt.blocks b { pt.blocks b with upper_in_r := some sP } }
  let pt := { pt with r_blocks := pt.r_blocks ++ [sP] }
  let pt :=
    if 1 < ((pt.blocks divider).children).length then
      { pt with c_blocks := pt.c_blocks ++ [divider] }
    else pt
  pt.labels.foldlM (fun pt label => pt.refineLabel b label) pt

/-- `PaigeTarjan::finished`. -/
def PaigeTarjan.finished (pt : PaigeTarjan) : Bool := pt.c_blocks.isEmpty

/-- The `while !self.finished() { self.refine() }` loop of
`PaigeTarjan::bisimulation`, with fuel. -/
def ptLoop : Nat → PaigeTarjan → Option PaigeTarjan
  | 0, pt => if pt.finished then some pt else none
  | fuel + 1, pt =>
      if pt.finished then some pt
      else do ptLoop fuel (← pt.refine)

/-- `Block::register_into_relation`: push `(a.process, b.process)` for every
ordered pair of elements of the block. -/
def register_into_relation (pt : PaigeTarjan) (b : BlockId) (rel : Relation) :
    Relation :=
  rel ++ ((pt.blocks b).elements).flatMap (fun a =>
    ((pt.blocks b).elements).map (fun c =>
      ((pt.states a).process, (pt.states c).process)))

/-- The relation collected by `PaigeTarjan::bisimulation` with
`collect = true`: `register_into_relation` over all blocks of P. -/
def collectRelation (pt : PaigeTarjan) : Relation :=
  pt.p_blocks.foldl (fun rel b => register_into_relation pt b rel) []

/-- `PaigeTarjan::bisimulation` (asserts `!self.done` on entry; timing
dropped; `none` models a panic or exhausted fuel). -/
def PaigeTarjan.bisimulation (fuel : Nat) (pt : PaigeTarjan) (collect : Bool) :
    Option (Option Relation × PaigeTarjan) := do
  let pt' ← ptLoop fuel pt
  let pt' := { pt' with done := true }
  if collect then pure (some (collectRelation pt'), pt')
  else pure (none, pt')

/-- `PaigeTarjan::check`: before completion, the results-not-available
error; otherwise find the two processes among the states (a missing process
yields `Ok(false)`) and compare the `block_in_p` pointers. -/
def PaigeTarjan.check (pt : PaigeTarjan) (procs : Process × Process) :
    Except CCSError Bool :=
  if !pt.done then .error .resultsNotAvailable
  else
    match pt.state_ids.find? (fun s => (pt.states s).process == procs.1) with
    | none => .ok false
    | some s1 =>
        match pt.state_ids.find? (fun s => (pt.states s).process == procs.2) with
        | none => .ok false
        | some s2 => .ok ((pt.states s1).block_in_p == (pt.states s2).block_in_p)

/-! ### Engine construction (`PaigeTarjan::new_with_labels`)

States are numbered by their position in the (deduplicated) state list,
transitions by their position in the transition list.  Block 0 is the
universe Q-block, block 1 the empty auxiliary block, blocks `2 + g` the
initial P-blocks, one per distinct sorted outgoing-label set (Rust buckets
them in a `BTreeMap` and iterates states in `HashMap` order; here the
buckets appear in order of first appearance and states in numeric order,
which only permutes lists whose order no theorem depends on).  Counter cell
`i` (for `i < n`) is state `i`'s own cell (value 0); cell `n + i` is the
cell shared by state `i`'s out-transitions, holding their number. -/

/-- Index of a process in the state list (`HashMap` lookup of the node). -/
def idOf (procs : List Process) (p : Process) : StateId := List.indexOf p procs

/-- Lexicographic comparison of character lists (the order in which
`Vec::sort` sorts label strings). -/
def leChars : List Char → List Char → Bool
  | [], _ => true
  | _ :: _, [] => false
  | c :: cs, d :: ds => if c = d then leChars cs ds else decide (c < d)

/-- Lexicographic string comparison. -/
def leStr (a b : String) : Bool := leChars a.data b.data

/-- Stable insertion of a string into a sorted list (used to model
`Vec::sort`, which is a stable sort; for a total order on strings the
sorted result is unique up to stability). -/
def insertSorted (x : String) : List String → List String
  | [] => [x]
  | y :: r => if leStr x y then x :: y :: r else y :: insertSorted x r

/-- `Vec::sort` on label lists. -/
def sortLabels (l : List String) : List String := l.foldr insertSorted []

/-- Sorted, consecutive-deduplicated outgoing label list of one state
(the bucket key computed in `PaigeTarjan::new_with_labels`). -/
def outLabelKey (trs : List Transition) (p : Process) : List String :=
  (sortLabels ((trs.filter (fun tr => tr.1 == p)).map (fun tr => tr.2.1))).destutter
    (fun a b => a ≠ b)

/-- `PaigeTarjan::new_with_labels`, over the state list and transition list
produced by the LTS iterators. -/
def ptInit (procs : List Process) (trs : List Transition) : PaigeTarjan :=
  let n := procs.length
  let keys := dedupKeepFirst (procs.map (outLabelKey trs))
  let groupOf : Process → Nat := fun p => List.indexOf (outLabelKey trs p) keys
  let states : StateId → PTState := fun i =>
    if h : i < n then
      let p := procs[i]
      { process := p,
        in_transitions :=
          (List.range trs.length).filter (fun j => trs[j]!.2.2 == p),
        out_transitions :=
          (List.range trs.length).filter (fun j => trs[j]!.1 == p),
        mark3 := false, mark5 := false,
        count := i,
        block_in_p := 2 + groupOf p }
    else default
  let transes : TransId → PTTrans := fun j =>
    if h : j < trs.length then
      { label := trs[j].2.1, lhs := idOf procs trs[j].1, count := n + idOf procs trs[j].1 }
    else default
  let blocks : BlockId → PTBlock := fun bId =>
    if bId = 0 then
      { elements := [], children := 1 :: (List.range keys.length).map (2 + ·),
        attached := none, upper_in_r := none }
    else if bId = 1 then
      { PTBlock.new with upper_in_r := some 0 }
    else if bId < 2 + keys.length then
      { elements := (List.range n).filter (fun i => groupOf procs[i]! == bId - 2),
        children := [], attached := none, upper_in_r := some 0 }
    else default
  { done := false,
    c_blocks := [0],
    r_blocks := [0],
    p_blocks := (List.range keys.length).map (2 + ·),
    labels := dedupKeepFirst (trs.map (fun tr => tr.2.1)),
    state_ids := List.range n,
    states := states,
    transes := transes,
    blocks := blocks,
    cells := fun c =>
      if c < n then 0
      else if c < 2 * n then (transOf trs procs[c - n]!).length
      else 0,
    fresh_block := 2 + keys.length,
    fresh_cell := 2 * n }

/-- The full naive pipeline on a CCS system: LTS iterator runs, engine
construction, refinement loop, collected relation. -/
def naiveRelationOf (fq fs : Nat) (S : CCSSystem) : Option Relation := do
  let sts ← statesRun fq fs S
  let trs ← transRun fq fs S
  let r ← fix_loop (((dedupKeepFirst sts).length) ^ 2 + 1) trs
    (init_relation (dedupKeepFirst sts))
  pure r.1

/-- The full Paige-Tarjan pipeline on a CCS system. -/
def ptRelationOf (fq fs fuel : Nat) (S : CCSSystem) : Option Relation := do
  let sts ← statesRun fq fs S
  let trs ← transRun fq fs S
  let pt ← ptLoop fuel (ptInit (dedupKeepFirst sts) trs)
  pure (collectRelation pt)

/-! ## Basic lemmas about the HashSet model -/

theorem mem_insertD {α : Type} [DecidableEq α] {l : List α} {x y : α} :
    y ∈ insertD l x ↔ y ∈ l ∨ y = x := by
  unfold insertD
  split
  · rename_i hx
    constructor
    · exact fun h => Or.inl h
    · rintro (h | rfl) <;> assumption
  · simp [or_comm]

theorem nodup_insertD {α : Type} [DecidableEq α] {l : List α} {x : α}
    (h : l.Nodup) : (insertD l x).Nodup := by
  unfold insertD
  split
  · exact h
  · rename_i hx
    simpa [List.nodup_append] using ⟨h, hx⟩

theorem mem_insertAllD {α : Type} [DecidableEq α] {l xs : List α} {y : α} :
    y ∈ insertAllD l xs ↔ y ∈ l ∨ y ∈ xs := by
  induction xs generalizing l with
  | nil => simp [insertAllD]
  | cons x xs ih =>
      show y ∈ insertAllD (insertD l x) xs ↔ _
      rw [ih, mem_insertD, List.mem_cons]
      tauto

theorem nodup_insertAllD {α : Type} [DecidableEq α] {l xs : List α}
    (h : l.Nodup) : (insertAllD l xs).Nodup := by
  induction xs generalizing l with
  | nil => exact h
  | cons x xs ih => exact ih (nodup_insertD h)

/-! ## C6: complementarity of the silent action -/

theorem isSome_map_snd {α β : Type} (o : Option (α × β)) :
    (Option.map Prod.snd o).isSome = o.isSome := by
  cases o <;> rfl

theorem tau_ne_append_prime (b : String) : TAU ≠ b ++ primeStr := by
  intro h
  have hl := congrArg String.length h
  rw [String.length_append] at hl
  have hb : b.length = 0 := by
    have h1 : TAU.length = 1 := by decide
    have h2 : primeStr.length = 1 := by decide
    omega
  have : b = "" := by
    cases b with
    | mk data =>
        cases data with
        | nil => rfl
        | cons c cs => simp [String.length] at hb
  subst this
  revert h
  decide

/-- C6 fails as stated: `actions_complementary` is a purely syntactic
string comparison, so the label written `τ'` is complementary to τ in both
argument orders. -/
theorem c6_counterexample :
    ¬ (∀ b : String, actions_complementary TAU b = false ∧
        actions_complementary b TAU = false) := by
  intro h
  have h1 := (h (TAU ++ primeStr)).1
  have h2 : actions_complementary TAU (TAU ++ primeStr) = true := by decide
  rw [h2] at h1
  exact Bool.noConfusion h1

/-- C6 (amended): the silent action τ has exactly one complementary label,
the label spelt `τ'` (τ followed by a prime); for every other label `b`,
`actions_complementary(τ, b)` and `actions_complementary(b, τ)` are false.
The original claim asserted this for every `b`. -/
theorem c6_tau_complement (b : String) :
    (actions_complementary TAU b = true ↔ b = TAU ++ primeStr) ∧
    (actions_complementary b TAU = true ↔ b = TAU ++ primeStr) := by
  unfold actions_complementary
  have hne : (TAU == b ++ primeStr) = false := by
    rw [beq_eq_false_iff_ne]
    exact tau_ne_append_prime b
  constructor
  · rw [Bool.or_eq_true, hne, beq_iff_eq]
    simp
  · rw [Bool.or_eq_true, hne, beq_iff_eq]
    simp

/-! ## C8: merging two systems -/

/-- A process name is defined in a system. -/
def CCSSystem.defines (S : CCSSystem) (n : String) : Prop :=
  (S.lookup n).isSome = true

instance (S : CCSSystem) (n : String) : Decidable (S.defines n) := by
  unfold CCSSystem.defines
  infer_instance

/-- C8: `CCSSystem::zip` fails with the overlapping-process error exactly
when some name is defined in both systems; on success the merged map is the
union (first system first, which equals the Rust `extend` union on the
disjoint domains) and the distinguished process is `system1`'s. -/
theorem c8_zip_overlap (s1 s2 : CCSSystem) :
    ((∃ n, s1.defines n ∧ s2.defines n) ↔
      ∃ p, CCSSystem.zip s1 s2 = .error (.overlappingProcess p)) ∧
    (∀ sm, CCSSystem.zip s1 s2 = .ok sm →
      (∀ n, sm.lookup n = (s1.lookup n).or (s2.lookup n)) ∧
      sm.destinct_process = s1.destinct_process) := by
  unfold CCSSystem.zip
  cases hfind : s1.processes.find?
      (fun pr => (s2.processes.find? (fun qr => qr.1 == pr.1)).isSome) with
  | some pr =>
      constructor
      · constructor
        · intro _
          exact ⟨pr.1, rfl⟩
        · intro _
          refine ⟨pr.1, ?_, ?_⟩
          · have hmem := List.mem_of_find?_eq_some hfind
            show (Option.map Prod.snd
              (s1.processes.find? (fun x => x.1 == pr.1))).isSome = true
            rw [isSome_map_snd]
            exact List.find?_isSome.mpr ⟨pr, hmem, by simp⟩
          · have hp := List.find?_some hfind
            show (Option.map Prod.snd
              (s2.processes.find? (fun x => x.1 == pr.1))).isSome = true
            rw [isSome_map_snd]
            exact hp
      · intro sm h
        cases h
  | none =>
      constructor
      · constructor
        · rintro ⟨n, h1, h2⟩
          exfalso
          obtain ⟨pr, hmem, hpr⟩ :
              ∃ x ∈ s1.processes, (fun pr => pr.1 == n) x = true := by
            have := h1
            unfold CCSSystem.defines CCSSystem.lookup at this
            rw [isSome_map_snd] at this
            exact List.find?_isSome.mp this
          have hnone := List.find?_eq_none.mp hfind pr hmem
          apply hnone
          have hn : pr.1 = n := by simpa using hpr
          have h2' := h2
          unfold CCSSystem.defines CCSSystem.lookup at h2'
          rw [isSome_map_snd] at h2'
          rw [hn]
          exact h2'
        · rintro ⟨p, h⟩
          cases h
      · intro sm h
        injection h with h
        subst h
        constructor
        · intro n
          show (Option.map Prod.snd
            (List.find? (fun pr => pr.1 == n) (s1.processes ++ s2.processes))) = _
          rw [List.find?_append]
          unfold CCSSystem.lookup
          cases List.find? (fun pr => pr.1 == n) s1.processes <;> simp
        · rfl

/-! ## C3: the successor function computes the SOS rules -/

theorem not_step_deadlock {S : CCSSystem} {a : String} {t' : Process} :
    ¬ Step S .deadlock a t' := by
  intro h
  cases h

theorem step_name_iff {S : CCSSystem} {n : String} {a : String} {t' : Process} :
    Step S (.processName n) a t' ↔ ∃ p, S.lookup n = some p ∧ Step S p a t' := by
  constructor
  · intro h
    cases h with
    | name hl hs => exact ⟨_, hl, hs⟩
  · rintro ⟨p, hl, hs⟩
    exact Step.name hl hs

theorem step_action_iff {S : CCSSystem} {b : String} {p : Process}
    {a : String} {t' : Process} :
    Step S (.action b p) a t' ↔ a = b ∧ t' = p := by
  constructor
  · intro h
    cases h with
    | act => exact ⟨rfl, rfl⟩
  · rintro ⟨rfl, rfl⟩
    exact Step.act

theorem step_choice_iff {S : CCSSystem} {l r : Process} {a : String}
    {t' : Process} :
    Step S (.nonDetChoice l r) a t' ↔ Step S l a t' ∨ Step S r a t' := by
  constructor
  · intro h
    cases h with
    | choiceL h => exact Or.inl h
    | choiceR h => exact Or.inr h
  · rintro (h | h)
    · exact Step.choiceL h
    · exact Step.choiceR h

theorem step_parallel_iff {S : CCSSystem} {l r : Process} {a : String}
    {u : Process} :
    Step S (.parallel l r) a u ↔
      ((∃ l', Step S l a l' ∧ u = .parallel l' r) ∨
       (∃ r', Step S r a r' ∧ u = .parallel l r') ∨
       (∃ b c l' r', Step S l b l' ∧ Step S r c r' ∧
          actions_complementary b c = true ∧ a = TAU ∧ u = .parallel l' r')) := by
  constructor
  · intro h
    cases h with
    | parL h => exact Or.inl ⟨_, h, rfl⟩
    | parR h => exact Or.inr (Or.inl ⟨_, h, rfl⟩)
    | parSync hl hr hc => exact Or.inr (Or.inr ⟨_, _, _, _, hl, hr, hc, rfl, rfl⟩)
  · rintro (⟨l', hs, rfl⟩ | ⟨r', hs, rfl⟩ | ⟨b, c, l', r', hl, hr, hc, rfl, rfl⟩)
    · exact Step.parL hs
    · exact Step.parR hs
    · exact Step.parSync hl hr hc

theorem step_rename_iff {S : CCSSystem} {p : Process} {b a : String}
    {l : String} {u : Process} :
    Step S (.rename p b a) l u ↔
      ∃ l0 p', Step S p l0 p' ∧ u = .rename p' b a ∧
        ((l0 = a ∧ l = b) ∨ (l0 ≠ a ∧ l = l0)) := by
  constructor
  · intro h
    cases h with
    | renameHit h => exact ⟨_, _, h, rfl, Or.inl ⟨rfl, rfl⟩⟩
    | renameMiss h hne => exact ⟨_, _, h, rfl, Or.inr ⟨hne, rfl⟩⟩
  · rintro ⟨l0, p', hs, rfl, (⟨rfl, rfl⟩ | ⟨hne, rfl⟩)⟩
    · exact Step.renameHit hs
    · exact Step.renameMiss hs hne

theorem step_restriction_iff {S : CCSSystem} {p : Process} {a : String}
    {l : String} {u : Process} :
    Step S (.restriction p a) l u ↔
      ∃ p', Step S p l p' ∧ l ≠ a ∧ actions_complementary l a = false ∧
        u = .restriction p' a := by
  constructor
  · intro h
    cases h with
    | restrict h hne hc => exact ⟨_, h, hne, hc, rfl⟩
  · rintro ⟨p', hs, hne, hc, rfl⟩
    exact Step.restrict hs hne hc

theorem direct_successors_helper_mem :
    ∀ (fuel : Nat) (S : CCSSystem) (t : Process)
      (acc res : List (String × Process)),
      direct_successors_helper fuel S t acc = some res →
      ∀ q : String × Process, q ∈ res ↔ (q ∈ acc ∨ Step S t q.1 q.2) := by
  intro fuel
  induction fuel with
  | zero =>
      intro S t acc res h
      simp [direct_successors_helper] at h
  | succ fuel ih =>
      intro S t acc res h q
      cases t with
      | deadlock =>
          simp only [direct_successors_helper, Option.some.injEq] at h
          subst h
          simp [not_step_deadlock]
      | processName n =>
          simp only [direct_successors_helper] at h
          cases hlook : S.lookup n with
          | some p =>
              rw [hlook] at h
              rw [ih S p acc res h q, step_name_iff]
              apply or_congr_right
              constructor
              · intro hs
                exact ⟨p, hlook, hs⟩
              · rintro ⟨p', hl', hs⟩
                rw [hlook] at hl'
                injection hl' with e
                subst e
                exact hs
          | none =>
              rw [hlook] at h
              injection h with h
              subst h
              simp only [step_name_iff, hlook]
              simp
      | action a p =>
          simp only [direct_successors_helper, Option.some.injEq] at h
          subst h
          rw [mem_insertD, step_action_iff, Prod.ext_iff]
      | nonDetChoice l r =>
          simp only [direct_successors_helper, Option.bind_eq_bind] at h
          cases hls : direct_successors_helper fuel S l acc with
          | none => rw [hls] at h; simp at h
          | some acc' =>
              rw [hls] at h
              simp only [Option.some_bind] at h
              rw [ih S r acc' res h q, ih S l acc acc' hls q, step_choice_iff]
              tauto
      | parallel l r =>
          simp only [direct_successors_helper, Option.bind_eq_bind] at h
          cases hls : direct_successors_helper fuel S l [] with
          | none => rw [hls] at h; simp at h
          | some ls =>
              cases hrs : direct_successors_helper fuel S r [] with
              | none => rw [hls, hrs] at h; simp at h
              | some rs =>
                  rw [hls, hrs] at h
                  simp only [Option.some_bind, Option.some.injEq] at h
                  subst h
                  have hmeml : ∀ ap, ap ∈ ls ↔ Step S l ap.1 ap.2 := by
                    intro ap
                    rw [ih S l [] ls hls ap]
                    simp
                  have hmemr : ∀ bp, bp ∈ rs ↔ Step S r bp.1 bp.2 := by
                    intro bp
                    rw [ih S r [] rs hrs bp]
                    simp
                  rw [mem_insertAllD, mem_insertAllD, mem_insertAllD,
                    step_parallel_iff]
                  constructor
                  · rintro (((hacc | hwl) | hwr) | hcom)
                    · exact Or.inl hacc
                    · obtain ⟨ap, hap, he⟩ := List.mem_map.mp hwl
                      subst he
                      exact Or.inr (Or.inl ⟨ap.2, (hmeml ap).mp hap, rfl⟩)
                    · obtain ⟨bp, hbp, he⟩ := List.mem_map.mp hwr
                      subst he
                      exact Or.inr (Or.inr (Or.inl ⟨bp.2, (hmemr bp).mp hbp, rfl⟩))
                    · obtain ⟨ap, hap, hin⟩ := List.mem_flatMap.mp hcom
                      obtain ⟨bp, hbp, he⟩ := List.mem_filterMap.mp hin
                      by_cases hc : actions_complementary ap.1 bp.1 = true
                      · rw [if_pos hc] at he
                        injection he with he
                        subst he
                        exact Or.inr (Or.inr (Or.inr
                          ⟨ap.1, bp.1, ap.2, bp.2, (hmeml ap).mp hap,
                            (hmemr bp).mp hbp, hc, rfl, rfl⟩))
                      · rw [if_neg hc] at he
                        cases he
                  · rintro (hacc | ⟨l', hs, he⟩ | ⟨r', hs, he⟩ |
                      ⟨b, c, l', r', hsl, hsr, hc, he1, he2⟩)
                    · exact Or.inl (Or.inl (Or.inl hacc))
                    · refine Or.inl (Or.inl (Or.inr (List.mem_map.mpr
                        ⟨(q.1, l'), (hmeml _).mpr hs, ?_⟩)))
                      rw [Prod.ext_iff]
                      exact ⟨rfl, he.symm⟩
                    · refine Or.inl (Or.inr (List.mem_map.mpr
                        ⟨(q.1, r'), (hmemr _).mpr hs, ?_⟩))
                      rw [Prod.ext_iff]
                      exact ⟨rfl, he.symm⟩
                    · refine Or.inr (List.mem_flatMap.mpr
                        ⟨(b, l'), (hmeml _).mpr hsl, List.mem_filterMap.mpr
                          ⟨(c, r'), (hmemr _).mpr hsr, ?_⟩⟩)
                      rw [if_pos hc]
                      exact congrArg some (Prod.ext_iff.mpr ⟨he1, he2⟩).symm
      | rename p b a =>
          simp only [direct_successors_helper, Option.bind_eq_bind] at h
          cases hts : direct_successors_helper fuel S p [] with
          | none => rw [hts] at h; simp at h
          | some ts =>
              rw [hts] at h
              simp only [Option.some_bind, Option.some.injEq] at h
              subst h
              have hmem : ∀ lp, lp ∈ ts ↔ Step S p lp.1 lp.2 := by
                intro lp
                rw [ih S p [] ts hts lp]
                simp
              rw [mem_insertAllD, step_rename_iff]
              apply or_congr_right
              rw [List.mem_map]
              constructor
              · rintro ⟨lp, hlp, he⟩
                by_cases hla : lp.1 = a
                · rw [if_pos (by simpa using hla)] at he
                  subst he
                  exact ⟨lp.1, lp.2, (hmem lp).mp hlp, rfl, Or.inl ⟨hla, rfl⟩⟩
                · rw [if_neg (by simpa using hla)] at he
                  subst he
                  exact ⟨lp.1, lp.2, (hmem lp).mp hlp, rfl, Or.inr ⟨hla, rfl⟩⟩
              · rintro ⟨l0, p', hs, he, hd⟩
                rcases hd with ⟨he1, he2⟩ | ⟨hne, he2⟩
                · refine ⟨(l0, p'), (hmem _).mpr hs, ?_⟩
                  rw [if_pos (by simpa using he1)]
                  rw [Prod.ext_iff]
                  exact ⟨he2.symm, he.symm⟩
                · refine ⟨(l0, p'), (hmem _).mpr hs, ?_⟩
                  rw [if_neg (by simpa using hne)]
                  rw [Prod.ext_iff]
                  exact ⟨he2.symm, he.symm⟩
      | restriction p a =>
          simp only [direct_successors_helper, Option.bind_eq_bind] at h
          cases hts : direct_successors_helper fuel S p [] with
          | none => rw [hts] at h; simp at h
          | some ts =>
              rw [hts] at h
              simp only [Option.some_bind, Option.some.injEq] at h
              subst h
              have hmem : ∀ lp, lp ∈ ts ↔ Step S p lp.1 lp.2 := by
                intro lp
                rw [ih S p [] ts hts lp]
                simp
              rw [mem_insertAllD, step_restriction_iff]
              apply or_congr_right
              rw [List.mem_map]
              constructor
              · rintro ⟨lp, hlp, he⟩
                rw [List.mem_filter] at hlp
                obtain ⟨hlp, hcond⟩ := hlp
                rw [Bool.and_eq_true, Bool.not_eq_true', Bool.not_eq_true',
                  beq_eq_false_iff_ne] at hcond
                subst he
                exact ⟨lp.2, (hmem lp).mp hlp, hcond.1, hcond.2, rfl⟩
              · rintro ⟨p', hs, hne, hc, he⟩
                refine ⟨(q.1, p'), ?_, ?_⟩
                · rw [List.mem_filter]
                  refine ⟨(hmem _).mpr hs, ?_⟩
                  rw [Bool.and_eq_true, Bool.not_eq_true', Bool.not_eq_true',
                    beq_eq_false_iff_ne]
                  exact ⟨hne, hc⟩
                · rw [Prod.ext_iff]
                  exact ⟨rfl, he.symm⟩

theorem direct_successors_helper_nodup :
    ∀ (fuel : Nat) (S : CCSSystem) (t : Process)
      (acc res : List (String × Process)),
      direct_successors_helper fuel S t acc = some res →
      acc.Nodup → res.Nodup := by
  intro fuel
  induction fuel with
  | zero =>
      intro S t acc res h
      simp [direct_successors_helper] at h
  | succ fuel ih =>
      intro S t acc res h hacc
      cases t with
      | deadlock =>
          simp only [direct_successors_helper, Option.some.injEq] at h
          subst h
          exact hacc
      | processName n =>
          simp only [direct_successors_helper] at h
          cases hlook : S.lookup n with
          | some p =>
              rw [hlook] at h
              exact ih S p acc res h hacc
          | none =>
              rw [hlook] at h
              injection h with h
              subst h
              exact hacc
      | action a p =>
          simp only [direct_successors_helper, Option.some.injEq] at h
          subst h
          exact nodup_insertD hacc
      | nonDetChoice l r =>
          simp only [direct_successors_helper, Option.bind_eq_bind] at h
          cases hls : direct_successors_helper fuel S l acc with
          | none => rw [hls] at h; simp at h
          | some acc' =>
              rw [hls] at h
              simp only [Option.some_bind] at h
              exact ih S r acc' res h (ih S l acc acc' hls hacc)
      | parallel l r =>
          simp only [direct_successors_helper, Option.bind_eq_bind] at h
          cases hls : direct_successors_helper fuel S l [] with
          | none => rw [hls] at h; simp at h
          | some ls =>
              cases hrs : direct_successors_helper fuel S r [] with
              | none => rw [hls, hrs] at h; simp at h
              | some rs =>
                  rw [hls, hrs] at h
                  simp only [Option.some_bind, Option.some.injEq] at h
                  subst h
                  exact nodup_insertAllD (nodup_insertAllD (nodup_insertAllD hacc))
      | rename p b a =>
          simp only [direct_successors_helper, Option.bind_eq_bind] at h
          cases hts : direct_successors_helper fuel S p [] with
          | none => rw [hts] at h; simp at h
          | some ts =>
              rw [hts] at h
              simp only [Option.some_bind, Option.some.injEq] at h
              subst h
              exact nodup_insertAllD hacc
      | restriction p a =>
          simp only [direct_successors_helper, Option.bind_eq_bind] at h
          cases hts : direct_successors_helper fuel S p [] with
          | none => rw [hts] at h; simp at h
          | some ts =>
              rw [hts] at h
              simp only [Option.some_bind, Option.some.injEq] at h
              subst h
              exact nodup_insertAllD hacc

/-- C3: whenever `direct_successors` returns (for any sufficient fuel), the
returned list is duplicate-free and contains exactly the `(label, term)`
pairs derivable by the SOS rules: Null yields nothing; a defined name yields
its definition's successors and an undefined name nothing; Prefix yields its
single move; Choice the union; Parallel the left moves, the right moves and
the τ-synchronisations of complementary moves; Rename relabels `a` to `b`
and wraps continuations; Restrict drops moves whose label is `a` or
complementary to `a` and wraps continuations. -/
theorem c3_direct_successors_sos (fuel : Nat) (S : CCSSystem) (t : Process)
    (res : List (String × Process))
    (h : direct_successors fuel S t = some res) :
    res.Nodup ∧ ∀ l t', ((l, t') ∈ res ↔ Step S t l t') := by
  constructor
  · exact direct_successors_helper_nodup fuel S t [] res h List.nodup_nil
  · intro l t'
    rw [direct_successors_helper_mem fuel S t [] res h (l, t')]
    simp

/-- Witness for C3 on the one-action system `A = a.0`. -/
theorem c3_direct_successors_sos_witness :
    ([(("a" : String), Process.deadlock)] : List (String × Process)).Nodup ∧
    ∀ l t', ((l, t') ∈ [(("a" : String), Process.deadlock)] ↔
      Step ⟨"W", [("A", .action "a" .deadlock)], "A"⟩ (.processName "A") l t') :=
  c3_direct_successors_sos 3 ⟨"W", [("A", .action "a" .deadlock)], "A"⟩
    (.processName "A") [("a", .deadlock)] rfl

/-! ## C5: the deduplicating state iterator -/

/-- The system `S = a.c.0 + b.d.0`: two distinct intermediate states share
the successor `0`. -/
def dupExample : CCSSystem :=
  ⟨"dup", [("S", .nonDetChoice (.action "a" (.action "c" .deadlock))
                 (.action "b" (.action "d" .deadlock)))], "S"⟩

/-- The full yield of `lts.states(false)` on `dupExample`. -/
def dupRunOutput : List Process :=
  [.processName "S", .action "c" .deadlock, .action "d" .deadlock,
   .deadlock, .deadlock]

/-- C5 fails on the code: with `allow_duplicates = false` the state iterator
pops `undiscovered_states` without re-checking `discovered_states`, so the
deadlock state — enqueued once from `c.0` and once from `d.0`, both before
its first pop — is yielded twice. -/
theorem c5_states_iterator_duplicate :
    statesRun 12 6 dupExample = some dupRunOutput ∧
    dupRunOutput.count .deadlock = 2 ∧ ¬ dupRunOutput.Nodup :=
  ⟨rfl, rfl, by decide⟩

/-! ## C1 and C2: the Paige-Tarjan engine disagrees with bisimilarity -/

/-- A strong bisimulation over the SOS transition relation (spec section 1):
related states have matching equally-labelled moves into related states. -/
def IsBisimulation (S : CCSSystem) (R : Process → Process → Prop) : Prop :=
  ∀ p q, R p q →
    (∀ a p', Step S p a p' → ∃ q', Step S q a q' ∧ R p' q') ∧
    (∀ a q', Step S q a q' → ∃ p', Step S p a p' ∧ R p' q')

/-- Strong bisimilarity: containment in some bisimulation. -/
def Bisimilar (S : CCSSystem) (p q : Process) : Prop :=
  ∃ R, IsBisimulation S R ∧ R p q

/-- `a.0`. -/
def trapA0 : Process := .action "a" .deadlock

/-- `b.0`. -/
def trapB0 : Process := .action "b" .deadlock

/-- `y = a.a.0 + b.a.0`. -/
def trapY : Process := .nonDetChoice (.action "a" trapA0) (.action "b" trapA0)

/-- `z = a.a.0 + b.b.0`.  `y` and `z` are not bisimilar: the `b`-move of
`y` reaches `a.0` while the only `b`-move of `z` reaches `b.0`. -/
def trapZ : Process := .nonDetChoice (.action "a" trapA0) (.action "b" trapB0)

/-- The system `S = c.y + c.z` (6 reachable states, labels a, b, c). -/
def trapSystem : CCSSystem :=
  ⟨"trap", [("S", .nonDetChoice (.action "c" trapY) (.action "c" trapZ))], "S"⟩

theorem trap_not_bisimilar : ¬ Bisimilar trapSystem trapY trapZ := by
  rintro ⟨R, hR, hyz⟩
  have hstep : Step trapSystem trapY "b" trapA0 := Step.choiceR Step.act
  obtain ⟨hfwd, _⟩ := hR _ _ hyz
  obtain ⟨q', hq', hRq⟩ := hfwd _ _ hstep
  have hq'eq : q' = trapB0 := by
    rcases step_choice_iff.mp hq' with h | h
    · rw [step_action_iff] at h
      exact absurd h.1 (by decide)
    · rw [step_action_iff] at h
      exact h.2
  subst hq'eq
  obtain ⟨hfwd2, _⟩ := hR _ _ hRq
  obtain ⟨q'', hq'', _⟩ :=
    hfwd2 _ _ (Step.act : Step trapSystem trapA0 "a" .deadlock)
  exact absurd (step_action_iff.mp hq'').1 (by decide)

/-- The Paige-Tarjan engine built on `trapSystem` by the full pipeline. -/
def ptEngineOf (fq fs : Nat) (S : CCSSystem) : Option PaigeTarjan := do
  let sts ← statesRun fq fs S
  let trs ← transRun fq fs S
  pure (ptInit (dedupKeepFirst sts) trs)

/-- C1 fails on the code: after `bisimulation` has run to completion on
`trapSystem` (the compound list C is empty), the non-bisimilar reachable
states `y` and `z` share a P-block: `check(y, z)` returns `Ok(true)` and the
collected relation contains `(y, z)`.  The culprit is the cleanup at the end
of each label iteration of `refine`, which resets `mark3`/`mark5`/`count`
only for the states of `B` instead of the marked predecessor states, so a
predecessor marked for one label is silently skipped when collecting the
predecessors for the next label, and the corresponding split never
happens. -/
theorem c1_paige_tarjan_wrong_block :
    ((ptEngineOf 20 12 trapSystem).bind
        (fun pt => PaigeTarjan.bisimulation 40 pt true)).map
      (fun out => ((out.2.check (trapY, trapZ)).toOption,
                   (out.1.getD []).contains (trapY, trapZ))) =
      some (some true, true) ∧
    ¬ Bisimilar trapSystem trapY trapZ :=
  ⟨by rfl, trap_not_bisimilar⟩

/-- C2 fails on the code: on `trapSystem` (6 states, far below 10⁴) the
naive fixpoint relation does not contain `(y, z)` but the Paige-Tarjan
relation does, so the two engines' collected relations differ as sets. -/
theorem c2_engines_disagree :
    (naiveRelationOf 20 12 trapSystem).map
        (fun r => r.contains (trapY, trapZ)) = some false ∧
    (ptRelationOf 20 12 40 trapSystem).map
        (fun r => r.contains (trapY, trapZ)) = some true :=
  ⟨by rfl, by rfl⟩

/-! ## C7: availability of results in `check` -/

/-- C7: for both engines, `check` returns the results-not-available error
exactly when the `done` flag is still unset; `bisimulation` sets `done`;
after completion the naive engine returns relation membership and the
Paige-Tarjan engine compares the `block_in_p` pointers of the two states,
returning `Ok(false)` (not an error) when either process is missing. -/
theorem c7_check_availability :
    (∀ (e : NaiveFixpoint) (p q : Process),
        ((e.check (p, q) = .error .resultsNotAvailable) ↔ e.done = false) ∧
        (e.done = true → e.check (p, q) = .ok (e.relation.contains (p, q)))) ∧
    (∀ (fuel : Nat) (e : NaiveFixpoint) (collect : Bool)
        (out : Option Relation × NaiveFixpoint),
        NaiveFixpoint.bisimulation fuel e collect = some out →
        out.2.done = true) ∧
    (∀ (pt : PaigeTarjan) (p q : Process),
        ((pt.check (p, q) = .error .resultsNotAvailable) ↔ pt.done = false) ∧
        (pt.done = true →
          (((pt.state_ids.find? (fun s => (pt.states s).process == p)) = none ∨
            (pt.state_ids.find? (fun s => (pt.states s).process == q)) = none) →
              pt.check (p, q) = .ok false) ∧
          (∀ s1 s2,
            pt.state_ids.find? (fun s => (pt.states s).process == p) = some s1 →
            pt.state_ids.find? (fun s => (pt.states s).process == q) = some s2 →
            pt.check (p, q) =
              .ok ((pt.states s1).block_in_p == (pt.states s2).block_in_p)))) ∧
    (∀ (fuel : Nat) (pt : PaigeTarjan) (collect : Bool)
        (out : Option Relation × PaigeTarjan),
        PaigeTarjan.bisimulation fuel pt collect = some out →
        out.2.done = true) := by
  refine ⟨?_, ?_, ?_, ?_⟩
  · intro e p q
    unfold NaiveFixpoint.check
    cases hd : e.done with
    | false => simp
    | true => simp
  · intro fuel e collect out h
    unfold NaiveFixpoint.bisimulation at h
    cases hfix : fix_loop fuel e.transitions e.relation with
    | none => rw [hfix] at h; cases h
    | some r =>
        rw [hfix] at h
        injection h with h
        subst h
        rfl
  · intro pt p q
    unfold PaigeTarjan.check
    cases hd : pt.done with
    | false => simp
    | true =>
        simp only [Bool.not_true, Bool.false_eq_true, if_false]
        refine ⟨⟨fun hmatch => ?_, fun hfalse => Bool.noConfusion hfalse⟩,
          fun _ => ⟨?_, ?_⟩⟩
        · cases h1 : pt.state_ids.find? (fun s => (pt.states s).process == p) with
          | none => rw [h1] at hmatch; cases hmatch
          | some s1 =>
              cases h2 : pt.state_ids.find?
                  (fun s => (pt.states s).process == q) with
              | none => rw [h1, h2] at hmatch; cases hmatch
              | some s2 => rw [h1, h2] at hmatch; cases hmatch
        · rintro (hn | hn)
          · rw [hn]
          · rw [hn]
            cases pt.state_ids.find? (fun s => (pt.states s).process == p) <;>
              rfl
        · intro s1 s2 h1 h2
          rw [h1, h2]
  · intro fuel pt collect out h
    unfold PaigeTarjan.bisimulation at h
    cases hloop : ptLoop fuel pt with
    | none => rw [hloop] at h; cases h
    | some pt' =>
        rw [hloop] at h
        simp only [Option.bind_eq_bind, Option.some_bind] at h
        cases collect with
        | true =>
            rw [if_pos rfl] at h
            injection h with h
            subst h
            rfl
        | false =>
            rw [if_neg (by decide)] at h
            injection h with h
            subst h
            rfl

/-- Witness for C7: a finished naive engine answers membership, a finished
Paige-Tarjan engine answers `Ok(false)` for a process that is not a state. -/
theorem c7_check_availability_witness :
    NaiveFixpoint.check ⟨true, [], []⟩ (Process.deadlock, Process.deadlock) =
      .ok (([] : Relation).contains (Process.deadlock, Process.deadlock)) ∧
    PaigeTarjan.check { ptInit [] [] with done := true }
      (Process.deadlock, Process.deadlock) = .ok false :=
  ⟨(c7_check_availability.1 ⟨true, [], []⟩ .deadlock .deadlock).2 rfl,
   (((c7_check_availability.2.2.1 { ptInit [] [] with done := true }
      .deadlock .deadlock).2 rfl).1 (Or.inl rfl))⟩

/-! ## C9: termination bound of the naive fixpoint loop -/

theorem contains_iff_mem {α : Type} [BEq α] [LawfulBEq α] {l : List α} {x : α} :
    l.contains x = true ↔ x ∈ l := by
  unfold List.contains
  exact List.elem_iff

theorem apply_f_sublist (ts : List Transition) (rel : Relation) :
    (apply_f ts rel).Sublist rel :=
  List.filter_sublist rel

theorem apply_f_length_le (ts : List Transition) (rel : Relation) :
    (apply_f ts rel).length ≤ rel.length :=
  (apply_f_sublist ts rel).length_le

theorem fix_loop_rounds :
    ∀ (fuel : Nat) (ts : List Transition) (rel : Relation)
      (out : Relation × Nat), fix_loop fuel ts rel = some out →
      out.1.length ≤ rel.length ∧ out.2 + out.1.length ≤ rel.length + 1 := by
  intro fuel
  induction fuel with
  | zero => intro ts rel out h; simp [fix_loop] at h
  | succ fuel ih =>
      intro ts rel out h
      rw [fix_loop] at h
      split at h
      · rename_i hlt
        cases hrec : fix_loop fuel ts (apply_f ts rel) with
        | none => rw [hrec] at h; cases h
        | some p =>
            rw [hrec] at h
            injection h with h
            subst h
            obtain ⟨h1, h2⟩ := ih ts (apply_f ts rel) p hrec
            constructor
            · exact le_trans h1 (apply_f_length_le ts rel)
            · show p.2 + 1 + p.1.length ≤ rel.length + 1
              omega
      · rename_i hge
        injection h with h
        subst h
        have hle := apply_f_length_le ts rel
        refine ⟨hle, ?_⟩
        show 1 + (apply_f ts rel).length ≤ rel.length + 1
        omega

theorem fix_loop_fixpoint :
    ∀ (fuel : Nat) (ts : List Transition) (rel : Relation)
      (out : Relation × Nat), fix_loop fuel ts rel = some out →
      apply_f ts out.1 = out.1 := by
  intro fuel
  induction fuel with
  | zero => intro ts rel out h; simp [fix_loop] at h
  | succ fuel ih =>
      intro ts rel out h
      rw [fix_loop] at h
      split at h
      · cases hrec : fix_loop fuel ts (apply_f ts rel) with
        | none => rw [hrec] at h; cases h
        | some p =>
            rw [hrec] at h
            injection h with h
            subst h
            exact ih ts (apply_f ts rel) p hrec
      · rename_i hge
        injection h with h
        subst h
        have heq : apply_f ts rel = rel := by
          apply List.Sublist.eq_of_length (apply_f_sublist ts rel)
          have := apply_f_length_le ts rel
          omega
        show apply_f ts (apply_f ts rel) = apply_f ts rel
        rw [heq]
        exact heq

theorem fix_loop_invariant (P : Relation → Prop) (ts : List Transition)
    (hstep : ∀ r, P r → P (apply_f ts r)) :
    ∀ (fuel : Nat) (rel : Relation) (out : Relation × Nat),
      fix_loop fuel ts rel = some out → P rel → P out.1 := by
  intro fuel
  induction fuel with
  | zero => intro rel out h; simp [fix_loop] at h
  | succ fuel ih =>
      intro rel out h hP
      rw [fix_loop] at h
      split at h
      · cases hrec : fix_loop fuel ts (apply_f ts rel) with
        | none => rw [hrec] at h; cases h
        | some p =>
            rw [hrec] at h
            injection h with h
            subst h
            exact ih (apply_f ts rel) p hrec (hstep rel hP)
      · injection h with h
        subst h
        exact hstep rel hP

theorem fix_loop_total :
    ∀ (fuel : Nat) (ts : List Transition) (rel : Relation),
      rel.length < fuel → (fix_loop fuel ts rel).isSome = true := by
  intro fuel
  induction fuel with
  | zero => intro ts rel h; omega
  | succ fuel ih =>
      intro ts rel h
      rw [fix_loop]
      split
      · rename_i hlt
        have hrec := ih ts (apply_f ts rel) (by omega)
        cases hfl : fix_loop fuel ts (apply_f ts rel) with
        | none => rw [hfl] at hrec; cases hrec
        | some p => rfl
      · rfl

theorem mem_init_relation (states : List Process) (p : Process × Process) :
    p ∈ init_relation states ↔ p.1 ∈ states ∧ p.2 ∈ states := by
  unfold init_relation
  rw [List.mem_flatMap]
  constructor
  · rintro ⟨s, hs, hmem⟩
    rw [List.mem_append] at hmem
    rcases hmem with hm | hm
    · obtain ⟨t, ht, he⟩ := List.mem_map.mp hm
      rw [List.mem_filter] at ht
      subst he
      exact ⟨hs, ht.1⟩
    · rw [List.mem_singleton] at hm
      subst hm
      exact ⟨hs, hs⟩
  · rintro ⟨h1, h2⟩
    refine ⟨p.1, h1, ?_⟩
    rw [List.mem_append]
    by_cases he : p.1 = p.2
    · right
      rw [List.mem_singleton]
      rw [Prod.ext_iff]
      exact ⟨rfl, he.symm⟩
    · left
      refine List.mem_map.mpr ⟨p.2, ?_, ?_⟩
      · rw [List.mem_filter]
        refine ⟨h2, ?_⟩
        rw [Bool.not_eq_true', beq_eq_false_iff_ne]
        exact he
      · rfl

theorem filter_ne_length {α : Type} [DecidableEq α] :
    ∀ (l : List α) (s : α), l.Nodup → s ∈ l →
      (l.filter (fun t => !(s == t))).length + 1 = l.length := by
  intro l
  induction l with
  | nil => intro s _ hmem; cases hmem
  | cons x xs ih =>
      intro s hnd hmem
      rw [List.nodup_cons] at hnd
      rw [List.filter_cons]
      rcases List.mem_cons.mp hmem with rfl | hmem'
      · rw [if_neg (by simp)]
        have hall : xs.filter (fun t => !(s == t)) = xs := by
          apply List.filter_eq_self.mpr
          intro a ha
          have hne : s ≠ a := by
            intro he
            rw [he] at hnd
            exact hnd.1 ha
          rw [Bool.not_eq_true', beq_eq_false_iff_ne]
          exact hne
        rw [hall, List.length_cons]
      · have hsx : s ≠ x := by
          intro he
          rw [he] at hmem'
          exact hnd.1 hmem'
        rw [if_pos (by rw [Bool.not_eq_true', beq_eq_false_iff_ne]; exact hsx)]
        rw [List.length_cons, List.length_cons, ← ih s hnd.2 hmem']

theorem init_relation_length (states : List Process) (hnd : states.Nodup) :
    (init_relation states).length = states.length ^ 2 := by
  unfold init_relation
  rw [List.length_flatMap]
  have hmap : ∀ s ∈ states,
      ((states.filter (fun t => !(s == t))).map (fun t => (s, t)) ++
        [(s, s)]).length = states.length := by
    intro s hs
    rw [List.length_append, List.length_map]
    have hft := filter_ne_length states s hnd hs
    simpa using hft
  rw [List.map_congr_left (by intro s hs; exact hmap s hs)]
  rw [List.map_const']
  rw [List.sum_replicate]
  rw [smul_eq_mul, sq]

/-- Reflexivity over the states is preserved by one application of `F`. -/
theorem apply_f_diag (ts : List Transition) (states : List Process)
    (hcl : ∀ tr ∈ ts, tr.2.2 ∈ states) (rel : Relation)
    (h : ∀ s ∈ states, (s, s) ∈ rel) :
    ∀ s ∈ states, (s, s) ∈ apply_f ts rel := by
  intro s hs
  unfold apply_f
  rw [List.mem_filter]
  refine ⟨h s hs, ?_⟩
  unfold is_in_f
  rw [Bool.and_eq_true]
  have hside : ((transOf ts s).all fun st =>
      (transOf ts s).any fun tt =>
        tt.2.1 == st.2.1 && rel.contains (st.2.2, tt.2.2)) = true := by
    rw [List.all_eq_true]
    intro st hst
    rw [List.any_eq_true]
    refine ⟨st, hst, ?_⟩
    rw [Bool.and_eq_true, beq_iff_eq]
    refine ⟨rfl, ?_⟩
    rw [contains_iff_mem]
    have hmem : st ∈ ts := List.mem_of_mem_filter hst
    exact h _ (hcl st hmem)
  have hside2 : ((transOf ts s).all fun tt =>
      (transOf ts s).any fun st =>
        tt.2.1 == st.2.1 && rel.contains (tt.2.2, st.2.2)) = true := by
    rw [List.all_eq_true]
    intro tt htt
    rw [List.any_eq_true]
    refine ⟨tt, htt, ?_⟩
    rw [Bool.and_eq_true, beq_iff_eq]
    refine ⟨rfl, ?_⟩
    rw [contains_iff_mem]
    have hmem : tt ∈ ts := List.mem_of_mem_filter htt
    exact h _ (hcl tt hmem)
  exact ⟨hside, hside2⟩

/-- C9: on every finite LTS the naive refinement loop terminates: with
`n = number of reachable states`, the initial relation has n² pairs, every
round that does not reach the fixed point strictly shrinks it (this is the
loop guard), n²+1 rounds of fuel always complete, the number of `refine`
rounds performed is at most n², and the returned relation is a fixed point
of `apply_f`. -/
theorem c9_fix_loop_rounds (states : List Process) (ts : List Transition)
    (hnd : states.Nodup) (hne : states ≠ [])
    (hcl : ∀ tr ∈ ts, tr.1 ∈ states ∧ tr.2.2 ∈ states) :
    (fix_loop (states.length ^ 2 + 1) ts (init_relation states)).isSome = true ∧
    ∀ fuel out, fix_loop fuel ts (init_relation states) = some out →
      out.2 ≤ states.length ^ 2 ∧ apply_f ts out.1 = out.1 := by
  constructor
  · exact fix_loop_total _ ts _ (by rw [init_relation_length states hnd]; omega)
  · intro fuel out h
    refine ⟨?_, fix_loop_fixpoint fuel ts _ out h⟩
    have hrounds := fix_loop_rounds fuel ts _ out h
    rw [init_relation_length states hnd] at hrounds
    have hdiag : ∀ s ∈ states, (s, s) ∈ out.1 := by
      refine fix_loop_invariant (fun r => ∀ s ∈ states, (s, s) ∈ r) ts
        (fun r hdiag => apply_f_diag ts states (fun tr htr => (hcl tr htr).2) r hdiag)
        fuel _ out h ?_
      intro s hs
      rw [mem_init_relation]
      exact ⟨hs, hs⟩
    have hlower : states.length ≤ out.1.length := by
      have hmnd : (states.map (fun s => (s, s))).Nodup :=
        hnd.map (fun a b hab => (Prod.ext_iff.mp hab).1)
      have hsub : (states.map (fun s => (s, s))) ⊆ out.1 := by
        intro x hx
        obtain ⟨s, hs, he⟩ := List.mem_map.mp hx
        subst he
        exact hdiag s hs
      have := (List.subperm_of_subset hmnd hsub).length_le
      rw [List.length_map] at this
      exact this
    have hn : 0 < states.length := List.length_pos.mpr hne
    have hsq : states.length ≤ states.length ^ 2 := by
      rw [sq]
      exact Nat.le_mul_of_pos_left _ hn
    generalize hm : states.length ^ 2 = m at *
    omega

/-- Witness for C9 on the one-state system with no transitions. -/
theorem c9_fix_loop_rounds_witness :
    (fix_loop (([Process.deadlock].length) ^ 2 + 1) []
        (init_relation [Process.deadlock])).isSome = true ∧
    ∀ fuel out, fix_loop fuel [] (init_relation [Process.deadlock]) = some out →
      out.2 ≤ ([Process.deadlock].length) ^ 2 ∧ apply_f [] out.1 = out.1 :=
  c9_fix_loop_rounds [Process.deadlock] [] (by decide) (by decide)
    (by intro tr htr; cases htr)

/-- Witness for C8: merging the disjoint systems `A: X = 0` and `B: Y = 0`
yields the union map with `A`'s distinguished process. -/
theorem c8_zip_overlap_witness :
    CCSSystem.lookup ⟨"A+B", [("X", .deadlock), ("Y", .deadlock)], "X"⟩ "Y" =
      (CCSSystem.lookup ⟨"A", [("X", .deadlock)], "X"⟩ "Y").or
        (CCSSystem.lookup ⟨"B", [("Y", .deadlock)], "Y"⟩ "Y") :=
  ((c8_zip_overlap ⟨"A", [("X", .deadlock)], "X"⟩
      ⟨"B", [("Y", .deadlock)], "Y"⟩).2
    ⟨"A+B", [("X", .deadlock), ("Y", .deadlock)], "X"⟩ rfl).1 "Y"

/-! ## C10: the intrusive doubly-linked list (`src/bisimilarity/list.rs`)

`RcList<T>` holds `head`/`tail` references, a cached `size`, and reaches the
per-element `{prev, next}` link fields through its `get_ref`/`get_ref_mut`
accessors.  Elements are `Rc<RefCell<T>>` nodes; the embedding numbers the
nodes and represents the one link field this list is configured with as two
identifier-indexed maps. -/

structure RcList where
  head : Option Nat
  tail : Option Nat
  nxt : Nat → Option Nat
  prv : Nat → Option Nat
  size : Nat

/-- `ListRef::new` everywhere: `RcList::new`. -/
def RcList.new : RcList :=
  { head := none, tail := none, nxt := fun _ => none, prv := fun _ => none,
    size := 0 }

/-- Update of a link map (a `set_next`/`set_prev` call). -/
def updL (f : Nat → Option Nat) (x : Nat) (v : Option Nat) :
    Nat → Option Nat :=
  fun y => if y = x then v else f y

/-- `RcList::append`: make `e` the new tail; link the previous tail to it
(or make it the head), clear `e.next`, point `e.prev` at the previous tail,
grow the size. -/
def RcList.append (l : RcList) (e : Nat) : RcList :=
  match l.tail with
  | some pt =>
      { head := l.head, tail := some e,
        nxt := updL (updL l.nxt pt (some e)) e none,
        prv := updL l.prv e (some pt),
        size := l.size + 1 }
  | none =>
      { head := some e, tail := some e,
        nxt := updL l.nxt e none,
        prv := updL l.prv e none,
        size := l.size + 1 }

/-- `RcList::remove`: take `e`'s links (clearing them), splice its
neighbours together, moving `head`/`tail` when `e` was at an end, shrink the
size.  (The Rust function also asserts that `e` has a neighbour or the list
is a singleton; under the representation invariant with `e ∈ xs` the branch
taken always corresponds to `e`'s actual position.) -/
def RcList.remove (l : RcList) (e : Nat) : RcList :=
  let nxt0 := updL l.nxt e none
  let prv0 := updL l.prv e none
  match l.nxt e, l.prv e with
  | some n, some p =>
      { head := l.head, tail := l.tail,
        nxt := updL nxt0 p (some n), prv := updL prv0 n (some p),
        size := l.size - 1 }
  | some n, none =>
      { head := some n, tail := l.tail,
        nxt := nxt0, prv := updL prv0 n none,
        size := l.size - 1 }
  | none, some p =>
      { head := l.head, tail := some p,
        nxt := updL nxt0 p none, prv := prv0,
        size := l.size - 1 }
  | none, none =>
      { head := none, tail := none, nxt := nxt0, prv := prv0,
        size := l.size - 1 }

/-- `RcList::peek_front`. -/
def RcList.peek_front (l : RcList) : Option Nat := l.head

/-- `RcList::pop_front`: `peek_front` and, when non-empty, `remove` the
head. -/
def RcList.pop_front (l : RcList) : Option Nat × RcList :=
  match l.peek_front with
  | none => (none, l)
  | some f => (some f, l.remove f)

/-- The first element of a list, or `stop` when empty. -/
def headOr (xs : List Nat) (stop : Option Nat) : Option Nat :=
  match xs with
  | [] => stop
  | x :: _ => some x

/-- `chainTo f xs stop`: following `f` traverses `xs` in order and leaves
`xs` with the value `stop`. -/
def chainTo (f : Nat → Option Nat) : List Nat → Option Nat → Prop
  | [], _ => True
  | [x], stop => f x = stop
  | x :: y :: r, stop => f x = some y ∧ chainTo f (y :: r) stop

/-- The representation invariant of `RcList`: `head`, `tail` and `size`
agree with the abstract element sequence `xs`, the elements are distinct,
`next` chains `xs` forward to `None` and `prev` chains it backward to
`None`. -/
structure Represents (l : RcList) (xs : List Nat) : Prop where
  hd : l.head = headOr xs none
  tl : l.tail = headOr xs.reverse none
  sz : l.size = xs.length
  nd : xs.Nodup
  nx : chainTo l.nxt xs none
  pv : chainTo l.prv xs.reverse none

theorem headOr_cons (x : Nat) (r : List Nat) (stop : Option Nat) :
    headOr (x :: r) stop = some x := rfl

theorem headOr_append (as bs : List Nat) (stop : Option Nat) :
    headOr (as ++ bs) stop = headOr as (headOr bs stop) := by
  cases as <;> rfl

theorem headOr_of_ne_nil (as : List Nat) (h : as ≠ []) (s1 s2 : Option Nat) :
    headOr as s1 = headOr as s2 := by
  cases as with
  | nil => exact absurd rfl h
  | cons x r => rfl

theorem chainTo_congr {f g : Nat → Option Nat} :
    ∀ (xs : List Nat) (stop : Option Nat), (∀ x ∈ xs, f x = g x) →
      (chainTo f xs stop ↔ chainTo g xs stop) := by
  intro xs
  induction xs with
  | nil => intro stop h; exact Iff.rfl
  | cons x xs ih =>
      intro stop h
      cases xs with
      | nil =>
          show f x = stop ↔ g x = stop
          rw [h x (by simp)]
      | cons y r =>
          show f x = some y ∧ chainTo f (y :: r) stop ↔
            g x = some y ∧ chainTo g (y :: r) stop
          rw [h x (by simp), ih stop (fun z hz => h z (by simp [hz]))]

theorem chainTo_append {f : Nat → Option Nat} :
    ∀ (as bs : List Nat) (stop : Option Nat),
      chainTo f (as ++ bs) stop ↔
        (chainTo f as (headOr bs stop) ∧ chainTo f bs stop) := by
  intro as
  induction as with
  | nil =>
      intro bs stop
      show chainTo f bs stop ↔ True ∧ chainTo f bs stop
      simp
  | cons x as ih =>
      intro bs stop
      cases as with
      | nil =>
          cases bs with
          | nil =>
              show f x = stop ↔ (f x = stop ∧ True)
              simp
          | cons b bs' =>
              show f x = some b ∧ chainTo f (b :: bs') stop ↔
                (f x = headOr (b :: bs') stop ∧ chainTo f (b :: bs') stop)
              rw [headOr_cons]
      | cons y as' =>
          show f x = some y ∧ chainTo f ((y :: as') ++ bs) stop ↔
            ((f x = some y ∧ chainTo f (y :: as') (headOr bs stop)) ∧
              chainTo f bs stop)
          rw [ih bs stop, and_assoc]

theorem chainTo_singleton (f : Nat → Option Nat) (x : Nat)
    (stop : Option Nat) : chainTo f [x] stop ↔ f x = stop := Iff.rfl

theorem updL_eq (f : Nat → Option Nat) (x : Nat) (v : Option Nat) :
    updL f x v x = v := by simp [updL]

theorem updL_ne (f : Nat → Option Nat) {x y : Nat} (v : Option Nat)
    (h : y ≠ x) : updL f x v y = f y := by simp [updL, h]

/-- `append` on a represented list: the element is placed at the tail. -/
theorem Represents.append_spec {l : RcList} {xs : List Nat} {e : Nat}
    (h : Represents l xs) (he : e ∉ xs) :
    Represents (l.append e) (xs ++ [e]) := by
  rcases List.eq_nil_or_concat xs with rfl | ⟨front, pt, hxs⟩
  · have htail : l.tail = none := h.tl
    unfold RcList.append
    rw [htail]
    refine ⟨rfl, rfl, ?_, by simp, ?_, ?_⟩
    · rw [h.sz]; rfl
    · show chainTo (updL l.nxt e none) [e] none
      rw [chainTo_singleton]
      exact updL_eq _ _ _
    · show chainTo (updL l.prv e none) [e] none
      rw [chainTo_singleton]
      exact updL_eq _ _ _
  rw [List.concat_eq_append] at hxs
  subst hxs
  · have hpt_mem : pt ∈ front ++ [pt] := by simp
    have hept : e ≠ pt := fun hc => he (hc ▸ hpt_mem)
    have hpt_nfront : pt ∉ front := by
      have hnd := h.nd
      rw [List.nodup_append] at hnd
      intro hc
      exact hnd.2.2 hc (by simp)
    have htail : l.tail = some pt := by
      rw [h.tl, List.reverse_append]
      rfl
    unfold RcList.append
    rw [htail]
    have he_front : e ∉ front := fun hc => he (by simp [hc])
    refine ⟨?_, ?_, ?_, ?_, ?_, ?_⟩
    · rw [h.hd]
      show headOr (front ++ [pt]) none = headOr ((front ++ [pt]) ++ [e]) none
      rw [headOr_append, headOr_append, headOr_append]
      rfl
    · rw [List.reverse_append]
      rfl
    · rw [h.sz]
      simp
    · rw [List.nodup_append]
      refine ⟨h.nd, by simp, ?_⟩
      intro a ha hb
      rw [List.mem_singleton] at hb
      subst hb
      exact he ha
    · rw [chainTo_append, chainTo_append]
      refine ⟨⟨?_, ?_⟩, ?_⟩
      · show chainTo _ front (some pt)
        have horig : chainTo l.nxt front (some pt) := by
          have hx := h.nx
          rw [chainTo_append] at hx
          exact hx.1
        have hfg : ∀ x ∈ front,
            updL (updL l.nxt pt (some e)) e none x = l.nxt x := by
          intro x hx
          have hxe : x ≠ e := fun hc => he_front (hc ▸ hx)
          have hxpt : x ≠ pt := fun hc => hpt_nfront (hc ▸ hx)
          rw [updL_ne _ _ hxe, updL_ne _ _ hxpt]
        exact (chainTo_congr front (some pt) hfg).mpr horig
      · show chainTo (updL (updL l.nxt pt (some e)) e none) [pt] (headOr [e] none)
        rw [chainTo_singleton]
        show updL (updL l.nxt pt (some e)) e none pt = some e
        rw [updL_ne _ _ (Ne.symm hept)]
        exact updL_eq _ _ _
      · show chainTo (updL (updL l.nxt pt (some e)) e none) [e] none
        rw [chainTo_singleton]
        exact updL_eq _ _ _
    · have hrev : ((front ++ [pt]) ++ [e]).reverse = e :: pt :: front.reverse := by
        simp
      rw [hrev]
      show updL l.prv e (some pt) e = some pt ∧
        chainTo (updL l.prv e (some pt)) (pt :: front.reverse) none
      refine ⟨updL_eq _ _ _, ?_⟩
      have horig : chainTo l.prv (pt :: front.reverse) none := by
        have hx := h.pv
        have hr : (front ++ [pt]).reverse = pt :: front.reverse := by simp
        rw [hr] at hx
        exact hx
      have hfg : ∀ x ∈ pt :: front.reverse,
          updL l.prv e (some pt) x = l.prv x := by
        intro x hx
        have hxe : x ≠ e := by
          intro hc
          subst hc
          rw [List.mem_cons, List.mem_reverse] at hx
          rcases hx with hc | hc
          · exact hept hc
          · exact he_front hc
        rw [updL_ne _ _ hxe]
      exact (chainTo_congr (pt :: front.reverse) none hfg).mpr horig

/-- `remove` on a represented list: the element is unlinked. -/
theorem Represents.remove_spec {l : RcList} {xs : List Nat} {e : Nat}
    (h : Represents l xs) (he : e ∈ xs) :
    Represents (l.remove e) (xs.erase e) := by
  obtain ⟨as, bs, rfl⟩ := List.append_of_mem he
  have hnd := h.nd
  rw [List.nodup_append] at hnd
  have hasnd : as.Nodup := hnd.1
  have hebs : (e :: bs).Nodup := hnd.2.1
  rw [List.nodup_cons] at hebs
  have hebs1 : e ∉ bs := hebs.1
  have hbsnd : bs.Nodup := hebs.2
  have hdisj : as.Disjoint (e :: bs) := hnd.2.2
  have heas : e ∉ as := fun hc => hdisj hc (by simp)
  have herase : (as ++ e :: bs).erase e = as ++ bs := by
    rw [List.erase_append_right _ heas, List.erase_cons_head]
  rw [herase]
  have hnx := h.nx
  rw [chainTo_append] at hnx
  have hnx_as : chainTo l.nxt as (some e) := hnx.1
  have hnx_ebs : chainTo l.nxt (e :: bs) none := hnx.2
  have hrevx : (as ++ e :: bs).reverse = bs.reverse ++ e :: as.reverse := by
    simp
  have hpv := h.pv
  rw [hrevx, chainTo_append] at hpv
  have hpv_bs : chainTo l.prv bs.reverse (some e) := hpv.1
  have hpv_eas : chainTo l.prv (e :: as.reverse) none := hpv.2
  have hlen := h.sz
  cases bs with
  | nil =>
      have hnxe : l.nxt e = none := hnx_ebs
      rcases List.eq_nil_or_concat as with rfl | ⟨as', p, has⟩
      · -- xs = [e]
        have hprve : l.prv e = none := hpv_eas
        have hrm : l.remove e = (⟨none, none, updL l.nxt e none,
            updL l.prv e none, l.size - 1⟩ : RcList) := by
          unfold RcList.remove
          rw [hnxe, hprve]
        rw [hrm]
        refine ⟨rfl, rfl, ?_, List.nodup_nil, trivial, trivial⟩
        show l.size - 1 = ([] ++ [] : List Nat).length
        simp at hlen ⊢
        omega
      · rw [List.concat_eq_append] at has
        subst has
        have hpas : p ∉ as' := by
          rw [List.nodup_append] at hasnd
          exact fun hc => hasnd.2.2 hc (by simp)
        have hpe : p ≠ e := fun hc => heas (by simp [hc])
        have haseq : (as' ++ [p]).reverse = p :: as'.reverse := by simp
        have hprve : l.prv e = some p := by
          have := hpv_eas
          rw [haseq] at this
          exact this.1
        have hpv_tail : chainTo l.prv (p :: as'.reverse) none := by
          have := hpv_eas
          rw [haseq] at this
          exact this.2
        have hrm : l.remove e = (⟨l.head, some p,
            updL (updL l.nxt e none) p none,
            updL l.prv e none, l.size - 1⟩ : RcList) := by
          unfold RcList.remove
          rw [hnxe, hprve]
        rw [hrm, List.append_nil]
        refine ⟨?_, ?_, ?_, hasnd, ?_, ?_⟩
        · rw [h.hd]
          show headOr ((as' ++ [p]) ++ [e]) none = headOr (as' ++ [p]) none
          rw [headOr_append, headOr_append, headOr_append]
          rfl
        · rw [haseq]
          rfl
        · rw [hlen]
          simp
        · rw [chainTo_append]
          constructor
          · show chainTo (updL (updL l.nxt e none) p none) as' (some p)
            have horig : chainTo l.nxt as' (some p) := by
              have hx := hnx_as
              rw [chainTo_append] at hx
              exact hx.1
            have hfg : ∀ x ∈ as',
                updL (updL l.nxt e none) p none x = l.nxt x := by
              intro x hx
              have hxe : x ≠ e := fun hc => heas (by simp [← hc, hx])
              have hxp : x ≠ p := fun hc => hpas (hc ▸ hx)
              rw [updL_ne _ _ hxp, updL_ne _ _ hxe]
            exact (chainTo_congr as' (some p) hfg).mpr horig
          · show chainTo (updL (updL l.nxt e none) p none) [p] none
            rw [chainTo_singleton]
            exact updL_eq _ _ _
        · rw [haseq]
          have hfg : ∀ x ∈ p :: as'.reverse, updL l.prv e none x = l.prv x := by
            intro x hx
            have hxe : x ≠ e := by
              intro hc
              subst hc
              rw [List.mem_cons, List.mem_reverse] at hx
              rcases hx with hc | hc
              · exact hpe hc.symm
              · exact heas (by simp [hc])
            rw [updL_ne _ _ hxe]
          exact (chainTo_congr _ none hfg).mpr hpv_tail
  | cons b bs' =>
      have hnxe : l.nxt e = some b := hnx_ebs.1
      have hnx_tail : chainTo l.nxt (b :: bs') none := hnx_ebs.2
      have hbe : b ≠ e := fun hc => hebs1 (by simp [← hc])
      have hbbs : b ∉ bs' := by
        rw [List.nodup_cons] at hbsnd
        exact hbsnd.1
      have hbrev : (b :: bs').reverse = bs'.reverse ++ [b] := by simp
      have hpv_bs' : chainTo l.prv bs'.reverse (some b) := by
        have hx := hpv_bs
        rw [hbrev, chainTo_append] at hx
        exact hx.1
      rcases List.eq_nil_or_concat as with rfl | ⟨as', p, has⟩
      · -- e is the head
        have hprve : l.prv e = none := hpv_eas
        have hrm : l.remove e = (⟨some b, l.tail,
            updL l.nxt e none,
            updL (updL l.prv e none) b none, l.size - 1⟩ : RcList) := by
          unfold RcList.remove
          rw [hnxe, hprve]
        rw [hrm, List.nil_append]
        refine ⟨rfl, ?_, ?_, hbsnd, ?_, ?_⟩
        · rw [h.tl]
          show headOr (([] ++ e :: b :: bs').reverse) none =
            headOr (b :: bs').reverse none
          rw [List.nil_append, List.reverse_cons, headOr_append]
          exact headOr_of_ne_nil _ (by simp) _ _
        · rw [hlen]
          simp
        · have hfg : ∀ x ∈ b :: bs', updL l.nxt e none x = l.nxt x := by
            intro x hx
            have hxe : x ≠ e := fun hc => hebs1 (hc ▸ hx)
            rw [updL_ne _ _ hxe]
          exact (chainTo_congr _ none hfg).mpr hnx_tail
        · rw [hbrev, chainTo_append]
          constructor
          · show chainTo (updL (updL l.prv e none) b none) bs'.reverse (some b)
            have hfg : ∀ x ∈ bs'.reverse,
                updL (updL l.prv e none) b none x = l.prv x := by
              intro x hx
              rw [List.mem_reverse] at hx
              have hxb : x ≠ b := fun hc => hbbs (hc ▸ hx)
              have hxe : x ≠ e := fun hc => hebs1 (by simp [← hc, hx])
              rw [updL_ne _ _ hxb, updL_ne _ _ hxe]
            exact (chainTo_congr _ (some b) hfg).mpr hpv_bs'
          · show chainTo (updL (updL l.prv e none) b none) [b] none
            rw [chainTo_singleton]
            exact updL_eq _ _ _
      · -- e is interior
        rw [List.concat_eq_append] at has
        subst has
        have hpas : p ∉ as' := by
          rw [List.nodup_append] at hasnd
          exact fun hc => hasnd.2.2 hc (by simp)
        have hpe : p ≠ e := fun hc => heas (by simp [hc])
        have hpbs : p ∉ b :: bs' := fun hc =>
          hdisj (by simp : p ∈ as' ++ [p]) (List.mem_cons_of_mem e hc)
        have hpb : p ≠ b := fun hc => hpbs (by simp [hc])
        have haseq : (as' ++ [p]).reverse = p :: as'.reverse := by simp
        have hprve : l.prv e = some p := by
          have := hpv_eas
          rw [haseq] at this
          exact this.1
        have hpv_astail : chainTo l.prv (p :: as'.reverse) none := by
          have := hpv_eas
          rw [haseq] at this
          exact this.2
        have hrm : l.remove e = (⟨l.head, l.tail,
            updL (updL l.nxt e none) p (some b),
            updL (updL l.prv e none) b (some p), l.size - 1⟩ : RcList) := by
          unfold RcList.remove
          rw [hnxe, hprve]
        rw [hrm]
        refine ⟨?_, ?_, ?_, ?_, ?_, ?_⟩
        · rw [h.hd]
          show headOr ((as' ++ [p]) ++ e :: b :: bs') none =
            headOr ((as' ++ [p]) ++ b :: bs') none
          rw [headOr_append, headOr_append, headOr_append, headOr_append]
          rfl
        · rw [h.tl]
          show headOr (((as' ++ [p]) ++ e :: b :: bs').reverse) none =
            headOr (((as' ++ [p]) ++ b :: bs').reverse) none
          rw [hrevx]
          have hr2 : ((as' ++ [p]) ++ b :: bs').reverse =
              (b :: bs').reverse ++ (as' ++ [p]).reverse := by simp
          rw [hr2, headOr_append, headOr_append]
          exact headOr_of_ne_nil _ (by simp) _ _
        · rw [hlen]
          simp
        · have hsub : (as' ++ [p] ++ b :: bs').Sublist
              (as' ++ [p] ++ e :: b :: bs') := by
            apply List.Sublist.append_left
            exact List.sublist_cons_self e (b :: bs')
          exact h.nd.sublist hsub
        · rw [chainTo_append]
          constructor
          · show chainTo (updL (updL l.nxt e none) p (some b)) (as' ++ [p]) (some b)
            rw [chainTo_append]
            constructor
            · show chainTo (updL (updL l.nxt e none) p (some b)) as' (some p)
              have horig : chainTo l.nxt as' (some p) := by
                have hx := hnx_as
                rw [chainTo_append] at hx
                exact hx.1
              have hfg : ∀ x ∈ as',
                  updL (updL l.nxt e none) p (some b) x = l.nxt x := by
                intro x hx
                have hxp : x ≠ p := fun hc => hpas (hc ▸ hx)
                have hxe : x ≠ e := fun hc => heas (by simp [← hc, hx])
                rw [updL_ne _ _ hxp, updL_ne _ _ hxe]
              exact (chainTo_congr as' (some p) hfg).mpr horig
            · show chainTo (updL (updL l.nxt e none) p (some b)) [p]
                (headOr (b :: bs') none)
              rw [chainTo_singleton, headOr_cons]
              exact updL_eq _ _ _
          · show chainTo (updL (updL l.nxt e none) p (some b)) (b :: bs') none
            have hfg : ∀ x ∈ b :: bs',
                updL (updL l.nxt e none) p (some b) x = l.nxt x := by
              intro x hx
              have hxp : x ≠ p := fun hc => hpbs (hc ▸ hx)
              have hxe : x ≠ e := fun hc => hebs1 (hc ▸ hx)
              rw [updL_ne _ _ hxp, updL_ne _ _ hxe]
            exact (chainTo_congr _ none hfg).mpr hnx_tail
        · have hrev2 : ((as' ++ [p]) ++ b :: bs').reverse =
              (b :: bs').reverse ++ p :: as'.reverse := by
            simp
          rw [hrev2, chainTo_append]
          constructor
          · show chainTo (updL (updL l.prv e none) b (some p))
              (b :: bs').reverse (some p)
            rw [hbrev, chainTo_append]
            constructor
            · show chainTo (updL (updL l.prv e none) b (some p)) bs'.reverse (some b)
              have hfg : ∀ x ∈ bs'.reverse,
                  updL (updL l.prv e none) b (some p) x = l.prv x := by
                intro x hx
                rw [List.mem_reverse] at hx
                have hxb : x ≠ b := fun hc => hbbs (hc ▸ hx)
                have hxe : x ≠ e := fun hc => hebs1 (by simp [← hc, hx])
                rw [updL_ne _ _ hxb, updL_ne _ _ hxe]
              exact (chainTo_congr _ (some b) hfg).mpr hpv_bs'
            · show chainTo (updL (updL l.prv e none) b (some p)) [b]
                (headOr (p :: as'.reverse) (some p))
              rw [chainTo_singleton, headOr_cons]
              exact updL_eq _ _ _
          · show chainTo (updL (updL l.prv e none) b (some p))
              (p :: as'.reverse) none
            have hfg : ∀ x ∈ p :: as'.reverse,
                updL (updL l.prv e none) b (some p) x = l.prv x := by
              intro x hx
              rw [List.mem_cons, List.mem_reverse] at hx
              have hxas : x ∈ as' ++ [p] := by
                rcases hx with rfl | hx
                · simp
                · simp [hx]
              have hxb : x ≠ b := fun hc => hdisj hxas (by simp [hc])
              have hxe : x ≠ e := fun hc => heas (hc ▸ hxas)
              rw [updL_ne _ _ hxb, updL_ne _ _ hxe]
            exact (chainTo_congr _ none hfg).mpr hpv_astail

/-- `pop_front` on a represented list. -/
theorem Represents.pop_front_spec {l : RcList} {xs : List Nat}
    (h : Represents l xs) :
    ((l.pop_front.1 = none) ↔ xs = []) ∧
    (xs = [] → l.pop_front.2 = l) ∧
    (∀ x xr, xs = x :: xr → l.pop_front.1 = some x ∧
      Represents l.pop_front.2 xr) := by
  cases xs with
  | nil =>
      have hh : l.head = none := h.hd
      have hp : l.pop_front = (none, l) := by
        unfold RcList.pop_front RcList.peek_front
        rw [hh]
      rw [hp]
      exact ⟨by simp, fun _ => rfl,
        fun x xr hxe => absurd hxe (by simp)⟩
  | cons x xr =>
      have hh : l.head = some x := h.hd
      have hp : l.pop_front = (some x, l.remove x) := by
        unfold RcList.pop_front RcList.peek_front
        rw [hh]
      rw [hp]
      refine ⟨by simp, fun hc => absurd hc (by simp), ?_⟩
      intro y yr hxe
      injection hxe with h1 h2
      subst h1
      subst h2
      refine ⟨rfl, ?_⟩
      have hrm := h.remove_spec (e := x) (by simp)
      rw [List.erase_cons_head] at hrm
      exact hrm

/-- C10: `RcList` operations preserve the representation invariant tying
`size` to the number of elements linked between `head` and `tail`:
`append` places the element at the tail and grows `size` by one, `remove`
of a contained element unlinks it and shrinks `size` by one, and
`pop_front` returns `None` exactly on the empty list and otherwise removes
and returns the head element. -/
theorem c10_rclist_invariant :
    (∀ (l : RcList) (xs : List Nat) (e : Nat), Represents l xs → e ∉ xs →
        Represents (l.append e) (xs ++ [e]) ∧
        (l.append e).size = l.size + 1 ∧ (l.append e).tail = some e) ∧
    (∀ (l : RcList) (xs : List Nat) (e : Nat), Represents l xs → e ∈ xs →
        Represents (l.remove e) (xs.erase e) ∧
        (l.remove e).size + 1 = l.size) ∧
    (∀ (l : RcList) (xs : List Nat), Represents l xs →
        ((l.pop_front.1 = none) ↔ xs = []) ∧
        (xs = [] → l.pop_front.2 = l) ∧
        (∀ x xr, xs = x :: xr → l.pop_front.1 = some x ∧
          Represents l.pop_front.2 xr)) := by
  refine ⟨?_, ?_, ?_⟩
  · intro l xs e h he
    refine ⟨h.append_spec he, ?_, ?_⟩
    · unfold RcList.append
      cases l.tail <;> rfl
    · unfold RcList.append
      cases l.tail <;> rfl
  · intro l xs e h he
    refine ⟨h.remove_spec he, ?_⟩
    have hsz : (l.remove e).size = l.size - 1 := by
      unfold RcList.remove
      cases l.nxt e <;> cases l.prv e <;> rfl
    have hxs : 0 < xs.length := List.length_pos.mpr (by
      intro hc
      rw [hc] at he
      cases he)
    have := h.sz
    omega
  · intro l xs h
    exact h.pop_front_spec

/-- Witness for C10 on the empty list and the element 5. -/
theorem c10_rclist_invariant_witness :
    Represents (RcList.new.append 5) ([] ++ [5]) ∧
    (RcList.new.append 5).size = RcList.new.size + 1 ∧
    (RcList.new.append 5).tail = some 5 :=
  c10_rclist_invariant.1 RcList.new [] 5
    ⟨rfl, rfl, rfl, List.nodup_nil, trivial, trivial⟩ (by decide)

/-! ## C4, naive engine side: the fixed-point relation is an equivalence

`EquivOn` is preserved by `apply_f` and holds for `init_relation`, hence it
holds for whatever the refinement loop returns. -/

/-- Prop-level reading of `is_in_f`. -/
theorem is_in_f_iff (ts : List Transition) (rel : Relation) (s t : Process) :
    is_in_f ts rel s t = true ↔
      ((∀ st ∈ transOf ts s, ∃ tt ∈ transOf ts t,
          tt.2.1 = st.2.1 ∧ (st.2.2, tt.2.2) ∈ rel) ∧
       (∀ tt ∈ transOf ts t, ∃ st ∈ transOf ts s,
          tt.2.1 = st.2.1 ∧ (tt.2.2, st.2.2) ∈ rel)) := by
  simp only [is_in_f, Bool.and_eq_true, List.all_eq_true, List.any_eq_true,
    beq_iff_eq, contains_iff_mem]

/-- The relation `rel` is reflexive on `states`, symmetric and transitive. -/
def EquivOn (states : List Process) (rel : Relation) : Prop :=
  (∀ s ∈ states, (s, s) ∈ rel) ∧
  (∀ p q : Process, (p, q) ∈ rel → (q, p) ∈ rel) ∧
  (∀ p q r : Process, (p, q) ∈ rel → (q, r) ∈ rel → (p, r) ∈ rel)

/-- `is_in_f` is symmetric in its two processes. -/
theorem is_in_f_symm (ts : List Transition) (rel : Relation) (s t : Process)
    (h : is_in_f ts rel s t = true) : is_in_f ts rel t s = true := by
  rw [is_in_f_iff] at h ⊢
  exact ⟨fun x hx => (h.2 x hx).imp (fun y hy => ⟨hy.1, hy.2.1.symm, hy.2.2⟩),
         fun x hx => (h.1 x hx).imp (fun y hy => ⟨hy.1, hy.2.1.symm, hy.2.2⟩)⟩

/-- `is_in_f` composes along a transitive relation. -/
theorem is_in_f_trans (ts : List Transition) (rel : Relation)
    (htr : ∀ p q r : Process, (p, q) ∈ rel → (q, r) ∈ rel → (p, r) ∈ rel)
    (s t u : Process) (h1 : is_in_f ts rel s t = true)
    (h2 : is_in_f ts rel t u = true) : is_in_f ts rel s u = true := by
  rw [is_in_f_iff] at h1 h2 ⊢
  constructor
  · intro x hx
    obtain ⟨y, hy, hly, hry⟩ := h1.1 x hx
    obtain ⟨z, hz, hlz, hrz⟩ := h2.1 y hy
    exact ⟨z, hz, hlz.trans hly, htr _ _ _ hry hrz⟩
  · intro x hx
    obtain ⟨y, hy, hly, hry⟩ := h2.2 x hx
    obtain ⟨z, hz, hlz, hrz⟩ := h1.2 y hy
    exact ⟨z, hz, hly.trans hlz, htr _ _ _ hry hrz⟩

/-- One application of `F` preserves being an equivalence on the states. -/
theorem apply_f_equivOn (ts : List Transition) (states : List Process)
    (hcl : ∀ tr ∈ ts, tr.2.2 ∈ states) (rel : Relation)
    (h : EquivOn states rel) : EquivOn states (apply_f ts rel) := by
  obtain ⟨hrefl, hsym, htrans⟩ := h
  refine ⟨apply_f_diag ts states hcl rel hrefl, ?_, ?_⟩
  · intro p q hm
    rw [apply_f, List.mem_filter] at hm ⊢
    exact ⟨hsym _ _ hm.1, is_in_f_symm ts rel p q hm.2⟩
  · intro p q r h1 h2
    rw [apply_f, List.mem_filter] at h1 h2 ⊢
    exact ⟨htrans _ _ _ h1.1 h2.1, is_in_f_trans ts rel htrans p q r h1.2 h2.2⟩

/-- The initial relation (all pairs of states) is an equivalence on the
states. -/
theorem init_relation_equivOn (states : List Process) :
    EquivOn states (init_relation states) := by
  refine ⟨?_, ?_, ?_⟩
  · intro s hs
    rw [mem_init_relation]
    exact ⟨hs, hs⟩
  · intro p q h
    rw [mem_init_relation] at h ⊢
    exact ⟨h.2, h.1⟩
  · intro p q r h1 h2
    rw [mem_init_relation] at h1 h2 ⊢
    exact ⟨h1.1, h2.2⟩

/-- Whatever relation the naive refinement loop returns from the initial
relation is an equivalence on the states. -/
theorem naive_equivOn (states : List Process) (ts : List Transition)
    (hcl : ∀ tr ∈ ts, tr.2.2 ∈ states) (fuel : Nat) (out : Relation × Nat)
    (h : fix_loop fuel ts (init_relation states) = some out) :
    EquivOn states out.1 :=
  fix_loop_invariant (EquivOn states) ts
    (fun r hr => apply_f_equivOn ts states hcl r hr) fuel _ out h
    (init_relation_equivOn states)

/-! ## C4, Paige-Tarjan side: the partition invariant of the engine -/

theorem upd_self {α : Type} (f : Nat → α) (i : Nat) (v : α) : upd f i v i = v := by
  simp [upd]

theorem upd_of_ne {α : Type} (f : Nat → α) {i j : Nat} (v : α) (h : j ≠ i) :
    upd f i v j = f j := by
  simp [upd, h]

/-- State identifiers, process decorations, in-transition lists and
transition sources are never changed by the refinement machinery. -/
def SFrame (pt ptP : PaigeTarjan) : Prop :=
  ptP.state_ids = pt.state_ids ∧
  (∀ s, (ptP.states s).process = (pt.states s).process) ∧
  (∀ s, (ptP.states s).in_transitions = (pt.states s).in_transitions) ∧
  (∀ t, (ptP.transes t).lhs = (pt.transes t).lhs)

theorem sframe_refl (pt : PaigeTarjan) : SFrame pt pt :=
  ⟨rfl, fun _ => rfl, fun _ => rfl, fun _ => rfl⟩

theorem sframe_trans {pt1 pt2 pt3 : PaigeTarjan} (h1 : SFrame pt1 pt2)
    (h2 : SFrame pt2 pt3) : SFrame pt1 pt3 :=
  ⟨h2.1.trans h1.1, fun s => (h2.2.1 s).trans (h1.2.1 s),
   fun s => (h2.2.2.1 s).trans (h1.2.2.1 s),
   fun t => (h2.2.2.2 t).trans (h1.2.2.2 t)⟩

/-- Every in-transition of a live state has a live source (true of the
constructed engine, and needed because `split` trusts the predecessor
lists). -/
def InTClosed (pt : PaigeTarjan) : Prop :=
  ∀ s ∈ pt.state_ids, ∀ tId ∈ (pt.states s).in_transitions,
    (pt.transes tId).lhs ∈ pt.state_ids

theorem inTClosed_of_sframe {pt ptP : PaigeTarjan} (hf : SFrame pt ptP)
    (h : InTClosed pt) : InTClosed ptP := by
  intro s hs tId htId
  rw [hf.1] at hs ⊢
  rw [hf.2.2.1 s] at htId
  rw [hf.2.2.2 tId]
  exact h s hs tId htId

/-- The process decoration is injective on the live states. -/
def ProcInj (pt : PaigeTarjan) : Prop :=
  ∀ s ∈ pt.state_ids, ∀ t ∈ pt.state_ids,
    (pt.states s).process = (pt.states t).process → s = t

theorem procInj_of_sframe {pt ptP : PaigeTarjan} (hf : SFrame pt ptP)
    (h : ProcInj pt) : ProcInj ptP := by
  intro s hs t ht he
  rw [hf.1] at hs ht
  rw [hf.2.1 s, hf.2.1 t] at he
  exact h s hs t ht he

/-- The partition invariant: P is duplicate-free, its blocks have
duplicate-free element lists, every live state lies in the P-block its
`block_in_p` pointer names, blocks of P contain only live states pointing
back to them, no block of P has a scratch attachment, P-identifiers are
below the allocation counter, and every block with a nonempty element list
is in P. -/
structure PTInv (pt : PaigeTarjan) : Prop where
  pnd : pt.p_blocks.Nodup
  elnd : ∀ b ∈ pt.p_blocks, ((pt.blocks b).elements).Nodup
  cover : ∀ s ∈ pt.state_ids,
    (pt.states s).block_in_p ∈ pt.p_blocks ∧
      s ∈ (pt.blocks ((pt.states s).block_in_p)).elements
  own : ∀ b ∈ pt.p_blocks, ∀ s ∈ (pt.blocks b).elements,
    s ∈ pt.state_ids ∧ (pt.states s).block_in_p = b
  att : ∀ b ∈ pt.p_blocks, (pt.blocks b).attached = none
  fresh : ∀ b ∈ pt.p_blocks, b < pt.fresh_block
  elemP : ∀ b, (pt.blocks b).elements ≠ [] → b ∈ pt.p_blocks

/-- The parts of the engine state read by the partition invariant are
unchanged (cells, marks, counter aliases and the C/R lists may differ). -/
def Untouched (pt ptP : PaigeTarjan) : Prop :=
  ptP.p_blocks = pt.p_blocks ∧
  ptP.blocks = pt.blocks ∧
  ptP.state_ids = pt.state_ids ∧
  ptP.fresh_block = pt.fresh_block ∧
  (∀ s, (ptP.states s).block_in_p = (pt.states s).block_in_p) ∧
  (∀ s, (ptP.states s).process = (pt.states s).process) ∧
  (∀ s, (ptP.states s).in_transitions = (pt.states s).in_transitions) ∧
  (∀ t, (ptP.transes t).lhs = (pt.transes t).lhs)

theorem untouched_refl (pt : PaigeTarjan) : Untouched pt pt :=
  ⟨rfl, rfl, rfl, rfl, fun _ => rfl, fun _ => rfl, fun _ => rfl, fun _ => rfl⟩

theorem untouched_trans {pt1 pt2 pt3 : PaigeTarjan} (h1 : Untouched pt1 pt2)
    (h2 : Untouched pt2 pt3) : Untouched pt1 pt3 :=
  ⟨h2.1.trans h1.1, h2.2.1.trans h1.2.1, h2.2.2.1.trans h1.2.2.1,
   h2.2.2.2.1.trans h1.2.2.2.1,
   fun s => (h2.2.2.2.2.1 s).trans (h1.2.2.2.2.1 s),
   fun s => (h2.2.2.2.2.2.1 s).trans (h1.2.2.2.2.2.1 s),
   fun s => (h2.2.2.2.2.2.2.1 s).trans (h1.2.2.2.2.2.2.1 s),
   fun t => (h2.2.2.2.2.2.2.2 t).trans (h1.2.2.2.2.2.2.2 t)⟩

theorem sframe_of_untouched {pt ptP : PaigeTarjan} (h : Untouched pt ptP) :
    SFrame pt ptP :=
  ⟨h.2.2.1, h.2.2.2.2.2.1, h.2.2.2.2.2.2.1, h.2.2.2.2.2.2.2⟩

theorem ptInv_of_untouched {pt ptP : PaigeTarjan} (h : Untouched pt ptP)
    (hinv : PTInv pt) : PTInv ptP := by
  obtain ⟨hp, hb, hid, hf, hbip, hproc, hintr, hlhs⟩ := h
  refine ⟨?_, ?_, ?_, ?_, ?_, ?_, ?_⟩
  · rw [hp]; exact hinv.pnd
  · rw [hp, hb]; exact hinv.elnd
  · intro s hs
    rw [hid] at hs
    rw [hbip s, hp, hb]
    exact hinv.cover s hs
  · intro b hbm s hsm
    rw [hp] at hbm
    rw [hb] at hsm
    rw [hid, hbip s]
    exact hinv.own b hbm s hsm
  · rw [hp, hb]; exact hinv.att
  · rw [hp, hf]; exact hinv.fresh
  · intro b hne
    rw [hb] at hne
    rw [hp]
    exact hinv.elemP b hne

theorem nodup_append_singleton {α : Type} {l : List α} {x : α}
    (h : l.Nodup) (hx : x ∉ l) : (l ++ [x]).Nodup := by
  rw [List.nodup_append]
  refine ⟨h, List.nodup_singleton x, ?_⟩
  intro a ha hax
  rw [List.mem_singleton] at hax
  subst hax
  exact hx ha

/-- The invariant maintained during the first pass of `split`: like `PTInv`
but a block of P is attached exactly when it has been remembered in `sbs`,
and attachments point to distinct blocks of P. -/
structure SplitInv (pt : PaigeTarjan) (sbs : List BlockId) : Prop where
  pnd : pt.p_blocks.Nodup
  elnd : ∀ b ∈ pt.p_blocks, ((pt.blocks b).elements).Nodup
  cover : ∀ s ∈ pt.state_ids,
    (pt.states s).block_in_p ∈ pt.p_blocks ∧
      s ∈ (pt.blocks ((pt.states s).block_in_p)).elements
  own : ∀ b ∈ pt.p_blocks, ∀ s ∈ (pt.blocks b).elements,
    s ∈ pt.state_ids ∧ (pt.states s).block_in_p = b
  attScope : ∀ b ∈ pt.p_blocks, ((pt.blocks b).attached ≠ none ↔ b ∈ sbs)
  attGood : ∀ b ∈ pt.p_blocks, ∀ dP, (pt.blocks b).attached = some dP →
    dP ∈ pt.p_blocks ∧ b ≠ dP
  fresh : ∀ b ∈ pt.p_blocks, b < pt.fresh_block
  elemP : ∀ b, (pt.blocks b).elements ≠ [] → b ∈ pt.p_blocks
  sbsSub : sbs ⊆ pt.p_blocks
  sbsNd : sbs.Nodup

/-- The invariant maintained during the second pass of `split`: like `PTInv`
except that a block of P may still be attached while it is among the blocks
not yet cleaned. -/
structure CleanInv (pt : PaigeTarjan) (rest : List BlockId) : Prop where
  pnd : pt.p_blocks.Nodup
  elnd : ∀ b ∈ pt.p_blocks, ((pt.blocks b).elements).Nodup
  cover : ∀ s ∈ pt.state_ids,
    (pt.states s).block_in_p ∈ pt.p_blocks ∧
      s ∈ (pt.blocks ((pt.states s).block_in_p)).elements
  own : ∀ b ∈ pt.p_blocks, ∀ s ∈ (pt.blocks b).elements,
    s ∈ pt.state_ids ∧ (pt.states s).block_in_p = b
  attRest : ∀ b ∈ pt.p_blocks, (pt.blocks b).attached ≠ none → b ∈ rest
  fresh : ∀ b ∈ pt.p_blocks, b < pt.fresh_block
  elemP : ∀ b, (pt.blocks b).elements ≠ [] → b ∈ pt.p_blocks
  restSub : rest ⊆ pt.p_blocks
  restNd : rest.Nodup

theorem splitInv_of_ptInv {pt : PaigeTarjan} (hinv : PTInv pt) :
    SplitInv pt [] := by
  refine ⟨hinv.pnd, hinv.elnd, hinv.cover, hinv.own, ?_, ?_, hinv.fresh,
    hinv.elemP, List.nil_subset _, List.nodup_nil⟩
  · intro b hb
    simp [hinv.att b hb]
  · intro b hb dP hdP
    rw [hinv.att b hb] at hdP
    cases hdP

theorem cleanInv_of_splitInv {pt : PaigeTarjan} {sbs : List BlockId}
    (hinv : SplitInv pt sbs) : CleanInv pt sbs :=
  ⟨hinv.pnd, hinv.elnd, hinv.cover, hinv.own,
   fun b hb hne => (hinv.attScope b hb).mp hne,
   hinv.fresh, hinv.elemP, hinv.sbsSub, hinv.sbsNd⟩

theorem ptInv_of_cleanInv {pt : PaigeTarjan} (hinv : CleanInv pt []) :
    PTInv pt := by
  refine ⟨hinv.pnd, hinv.elnd, hinv.cover, hinv.own, ?_, hinv.fresh,
    hinv.elemP⟩
  intro b hb
  by_cases hatt : (pt.blocks b).attached = none
  · exact hatt
  · cases hinv.attRest b hb hatt

/-- The block heap produced by `splitAlloc` with the read-after-write
aliasing resolved (`F` is the allocated identifier, `u` the R-parent of
`d`); validated against `splitAlloc` by `splitAlloc_eq`. -/
def splitAllocBlock (pt : PaigeTarjan) (d u F b : BlockId) : PTBlock :=
  let base :=
    if b = F then { PTBlock.new with upper_in_r := some u }
    else if b = d then { pt.blocks d with attached := some F }
    else pt.blocks b
  if b = u then { base with children := base.children ++ [F] } else base

/-- The result of `splitAlloc` with the aliasing resolved. -/
def splitAllocOut (pt : PaigeTarjan) (d u : BlockId) : PaigeTarjan :=
  { pt with
    fresh_block := pt.fresh_block + 1,
    p_blocks := pt.p_blocks ++ [pt.fresh_block],
    blocks := fun b => splitAllocBlock pt d u pt.fresh_block b }

theorem splitAlloc_eq (pt : PaigeTarjan) (d : BlockId)
    (hdF : d ≠ pt.fresh_block) :
    splitAlloc pt d = ((pt.blocks d).upper_in_r).map (splitAllocOut pt d) := by
  have hscr : ((upd (upd pt.blocks pt.fresh_block PTBlock.new) d
      { (upd pt.blocks pt.fresh_block PTBlock.new) d with
        attached := some pt.fresh_block }) d).upper_in_r =
      (pt.blocks d).upper_in_r := by
    rw [upd_self, upd_of_ne _ _ hdF]
  cases hu : (pt.blocks d).upper_in_r with
  | none =>
      simp only [splitAlloc]
      rw [hscr, hu]
      rfl
  | some u =>
      simp only [splitAlloc]
      rw [hscr, hu]
      show some _ = some _
      congr 1
      show ({ pt with
          blocks := _, fresh_block := pt.fresh_block + 1,
          p_blocks := pt.p_blocks ++ [pt.fresh_block] } : PaigeTarjan) = _
      unfold splitAllocOut
      congr 1
      funext b
      unfold splitAllocBlock
      simp only [upd]
      by_cases h1 : b = u <;> by_cases h2 : b = pt.fresh_block <;>
        by_cases h3 : b = d <;>
        simp_all [Ne.symm hdF]

theorem splitAllocBlock_elements (pt : PaigeTarjan) (d u F b : BlockId) :
    (splitAllocBlock pt d u F b).elements =
      if b = F then [] else (pt.blocks b).elements := by
  unfold splitAllocBlock
  by_cases h1 : b = u <;> by_cases h2 : b = F <;> by_cases h3 : b = d <;>
    simp [h1, h2, h3, PTBlock.new] <;> split_ifs <;> simp_all

theorem splitAllocBlock_attached (pt : PaigeTarjan) (d u F b : BlockId) :
    (splitAllocBlock pt d u F b).attached =
      if b = F then none
      else if b = d then some F
      else (pt.blocks b).attached := by
  unfold splitAllocBlock
  by_cases h1 : b = u <;> by_cases h2 : b = F <;> by_cases h3 : b = d <;>
    simp [h1, h2, h3, PTBlock.new] <;> split_ifs <;> simp_all

/-- The allocation branch of the first pass of `split` keeps the split
invariant, remembering `d`. -/
theorem splitAllocOut_spec (pt : PaigeTarjan) (d u : BlockId)
    (sbs : List BlockId) (hinv : SplitInv pt sbs) (hd : d ∈ pt.p_blocks)
    (hattn : (pt.blocks d).attached = none) :
    SplitInv (splitAllocOut pt d u) (sbs ++ [d]) := by
  have hdF : d ≠ pt.fresh_block := Nat.ne_of_lt (hinv.fresh d hd)
  have hFP : pt.fresh_block ∉ pt.p_blocks := fun hc =>
    absurd (hinv.fresh _ hc) (lt_irrefl _)
  have hdsbs : d ∉ sbs := fun hc => ((hinv.attScope d hd).mpr hc) hattn
  have hbel : ∀ b, ((splitAllocOut pt d u).blocks b).elements =
      if b = pt.fresh_block then [] else (pt.blocks b).elements :=
    fun b => splitAllocBlock_elements pt d u pt.fresh_block b
  have hbatt : ∀ b, ((splitAllocOut pt d u).blocks b).attached =
      if b = pt.fresh_block then none
      else if b = d then some pt.fresh_block
      else (pt.blocks b).attached :=
    fun b => splitAllocBlock_attached pt d u pt.fresh_block b
  have hmemP : ∀ b, b ∈ pt.p_blocks ++ [pt.fresh_block] →
      b = pt.fresh_block ∨ (b ∈ pt.p_blocks ∧ b ≠ pt.fresh_block) := by
    intro b hb
    rcases List.mem_append.mp hb with hb1 | hb1
    · exact Or.inr ⟨hb1, fun hc => hFP (hc ▸ hb1)⟩
    · exact Or.inl (List.mem_singleton.mp hb1)
  refine ⟨?_, ?_, ?_, ?_, ?_, ?_, ?_, ?_, ?_, ?_⟩
  · exact nodup_append_singleton hinv.pnd hFP
  · intro b hb
    rw [hbel b]
    rcases hmemP b hb with hb1 | hb1
    · rw [if_pos hb1]
      exact List.nodup_nil
    · rw [if_neg hb1.2]
      exact hinv.elnd b hb1.1
  · intro x hx
    have hcov := hinv.cover x hx
    have hbipF : (pt.states x).block_in_p ≠ pt.fresh_block := fun hc =>
      hFP (hc ▸ hcov.1)
    show (pt.states x).block_in_p ∈ pt.p_blocks ++ [pt.fresh_block] ∧
      x ∈ ((splitAllocOut pt d u).blocks ((pt.states x).block_in_p)).elements
    refine ⟨List.mem_append_left _ hcov.1, ?_⟩
    rw [hbel, if_neg hbipF]
    exact hcov.2
  · intro b hb x hxm
    have hxm' : x ∈ (if b = pt.fresh_block then []
        else (pt.blocks b).elements) := by
      rw [← hbel b]
      exact hxm
    rcases hmemP b hb with hb1 | hb1
    · rw [if_pos hb1] at hxm'
      cases hxm'
    · rw [if_neg hb1.2] at hxm'
      exact hinv.own b hb1.1 x hxm'
  · intro b hb
    have hw : ((splitAllocOut pt d u).blocks b).attached =
        if b = pt.fresh_block then none
        else if b = d then some pt.fresh_block
        else (pt.blocks b).attached := hbatt b
    rcases hmemP b hb with hb1 | hb1
    · rw [if_pos hb1] at hw
      rw [hw]
      refine iff_of_false (by simp) ?_
      intro hc
      rcases List.mem_append.mp hc with hc1 | hc1
      · exact hFP (hinv.sbsSub (hb1 ▸ hc1))
      · exact hdF ((List.mem_singleton.mp hc1).symm.trans hb1)
    · rw [if_neg hb1.2] at hw
      by_cases hbd : b = d
      · rw [if_pos hbd] at hw
        rw [hw]
        refine iff_of_true (by simp) ?_
        exact List.mem_append_right _ (by rw [hbd]; exact List.mem_singleton_self d)
      · rw [if_neg hbd] at hw
        rw [hw, hinv.attScope b hb1.1]
        constructor
        · exact fun hc => List.mem_append_left _ hc
        · intro hc
          rcases List.mem_append.mp hc with hc1 | hc1
          · exact hc1
          · exact absurd (List.mem_singleton.mp hc1) hbd
  · intro b hb x hx
    have hx' : (if b = pt.fresh_block then none
        else if b = d then some pt.fresh_block
        else (pt.blocks b).attached) = some x := by
      rw [← hbatt b]
      exact hx
    rcases hmemP b hb with hb1 | hb1
    · rw [if_pos hb1] at hx'
      cases hx'
    · rw [if_neg hb1.2] at hx'
      by_cases hbd : b = d
      · rw [if_pos hbd] at hx'
        injection hx' with hx'
        subst hx'
        exact ⟨List.mem_append_right _ (List.mem_singleton_self _),
          hb1.2⟩
      · rw [if_neg hbd] at hx'
        have hg := hinv.attGood b hb1.1 x hx'
        exact ⟨List.mem_append_left _ hg.1, hg.2⟩
  · intro b hb
    show b < pt.fresh_block + 1
    rcases hmemP b hb with hb1 | hb1
    · rw [hb1]
      exact Nat.lt_succ_self _
    · exact Nat.lt_succ_of_lt (hinv.fresh b hb1.1)
  · intro b hb0
    have hb0' : (if b = pt.fresh_block then []
        else (pt.blocks b).elements) ≠ [] := by
      rw [← hbel b]
      exact hb0
    by_cases hb1 : b = pt.fresh_block
    · exact List.mem_append_right _ (by rw [hb1]; exact List.mem_singleton_self _)
    · rw [if_neg hb1] at hb0'
      exact List.mem_append_left _ (hinv.elemP b hb0')
  · intro x hx
    rcases List.mem_append.mp hx with hx1 | hx1
    · exact List.mem_append_left _ (hinv.sbsSub hx1)
    · rw [List.mem_singleton.mp hx1]
      exact List.mem_append_left _ hd
  · exact nodup_append_singleton hinv.sbsNd hdsbs

/-- Moving a predecessor into the attached scratch block keeps the split
invariant and the frame. -/
theorem splitRelink_spec (pt : PaigeTarjan) (sbs : List BlockId) (s : StateId)
    (dP : BlockId) (hinv : SplitInv pt sbs) (hs : s ∈ pt.state_ids)
    (hatt : (pt.blocks ((pt.states s).block_in_p)).attached = some dP) :
    SplitInv (splitRelink pt s dP) sbs ∧ SFrame pt (splitRelink pt s dP) := by
  have hcov := hinv.cover s hs
  set d := (pt.states s).block_in_p with hd
  have hdP : d ∈ pt.p_blocks := hcov.1
  have hsd : s ∈ (pt.blocks d).elements := hcov.2
  have hgood := hinv.attGood d hdP dP hatt
  have hdPmem : dP ∈ pt.p_blocks := hgood.1
  have hne : d ≠ dP := hgood.2
  set D1 : PTBlock :=
    { pt.blocks d with elements := (pt.blocks d).elements.erase s } with hD1
  set B1 : BlockId → PTBlock := upd pt.blocks d D1 with hB1
  set E : PTBlock := { B1 dP with elements := (B1 dP).elements ++ [s] } with hE
  set S1 : StateId → PTState :=
    upd pt.states s { pt.states s with block_in_p := dP } with hS1
  have hB1dP : B1 dP = pt.blocks dP := by
    rw [hB1]
    exact upd_of_ne _ _ (Ne.symm hne)
  have hbel : ∀ b, ((upd B1 dP E) b).elements =
      if b = dP then (pt.blocks dP).elements ++ [s]
      else if b = d then (pt.blocks d).elements.erase s
      else (pt.blocks b).elements := by
    intro b
    by_cases h1 : b = dP
    · subst h1
      rw [upd_self, if_pos rfl, hE, hB1dP]
    · rw [upd_of_ne _ _ h1, if_neg h1]
      by_cases h2 : b = d
      · subst h2
        rw [hB1, upd_self, if_pos rfl, hD1]
      · rw [hB1, upd_of_ne _ _ h2, if_neg h2]
  have hbatt : ∀ b, ((upd B1 dP E) b).attached = (pt.blocks b).attached := by
    intro b
    by_cases h1 : b = dP
    · subst h1
      rw [upd_self, hE, hB1dP]
    · rw [upd_of_ne _ _ h1]
      by_cases h2 : b = d
      · subst h2
        rw [hB1, upd_self, hD1]
      · rw [hB1, upd_of_ne _ _ h2]
  have hsbip : ∀ x, (S1 x).block_in_p =
      if x = s then dP else (pt.states x).block_in_p := by
    intro x
    by_cases h1 : x = s
    · subst h1
      rw [hS1, upd_self, if_pos rfl]
    · rw [hS1, upd_of_ne _ _ h1, if_neg h1]
  have hsproc : ∀ x, (S1 x).process = (pt.states x).process := by
    intro x
    by_cases h1 : x = s
    · subst h1
      rw [hS1, upd_self]
    · rw [hS1, upd_of_ne _ _ h1]
  have hsintr : ∀ x, (S1 x).in_transitions = (pt.states x).in_transitions := by
    intro x
    by_cases h1 : x = s
    · subst h1
      rw [hS1, upd_self]
    · rw [hS1, upd_of_ne _ _ h1]
  have hkeep : ∀ x, x ≠ s → ∀ bb, x ∈ (pt.blocks bb).elements →
      x ∈ ((upd B1 dP E) bb).elements := by
    intro x hxs bb hxm
    rw [hbel bb]
    split_ifs with e1 e2
    · exact List.mem_append_left _ (e1 ▸ hxm)
    · rw [(hinv.elnd d hdP).mem_erase_iff]
      exact ⟨hxs, e2 ▸ hxm⟩
    · exact hxm
  constructor
  · refine ⟨hinv.pnd, ?_, ?_, ?_, ?_, ?_, hinv.fresh, ?_, hinv.sbsSub,
      hinv.sbsNd⟩
    · -- elnd
      intro b hb
      have hb' : b ∈ pt.p_blocks := hb
      show ((upd B1 dP E b).elements).Nodup
      rw [hbel b]
      split_ifs with e1 e2
      · subst e1
        have hnotin : s ∉ (pt.blocks b).elements := fun hc =>
          hne (hd.trans ((hinv.own b hb' s hc).2))
        exact nodup_append_singleton (hinv.elnd b hb') hnotin
      · exact (hinv.elnd d hdP).erase s
      · exact hinv.elnd b hb'
    · -- cover
      intro x hx
      have hx' : x ∈ pt.state_ids := hx
      show (S1 x).block_in_p ∈ pt.p_blocks ∧
        x ∈ ((upd B1 dP E) ((S1 x).block_in_p)).elements
      rw [hsbip x]
      by_cases h1 : x = s
      · rw [if_pos h1]
        refine ⟨hdPmem, ?_⟩
        rw [hbel dP, if_pos rfl]
        subst h1
        exact List.mem_append_right _ (List.mem_singleton_self x)
      · rw [if_neg h1]
        have hcx := hinv.cover x hx'
        exact ⟨hcx.1, hkeep x h1 _ hcx.2⟩
    · -- own
      intro b hb x hxm
      have hb' : b ∈ pt.p_blocks := hb
      have hxm' : x ∈ ((upd B1 dP E) b).elements := hxm
      rw [hbel b] at hxm'
      show x ∈ pt.state_ids ∧ (S1 x).block_in_p = b
      rw [hsbip x]
      split_ifs at hxm' with e1 e2
      · -- b = dP
        rcases List.mem_append.mp hxm' with hx1 | hx1
        · have ho := hinv.own dP hdPmem x hx1
          have hxs : x ≠ s := fun hc => hne (hd.trans (hc ▸ ho.2))
          rw [if_neg hxs]
          exact ⟨ho.1, ho.2.trans e1.symm⟩
        · rw [List.mem_singleton] at hx1
          subst hx1
          rw [if_pos rfl]
          exact ⟨hs, e1.symm⟩
      · -- b = d
        rw [(hinv.elnd d hdP).mem_erase_iff] at hxm'
        have ho := hinv.own d hdP x hxm'.2
        rw [if_neg hxm'.1]
        exact ⟨ho.1, ho.2.trans e2.symm⟩
      · -- other blocks
        have ho := hinv.own b hb' x hxm'
        have hxs : x ≠ s := fun hc => e2 ((hc ▸ ho.2).symm.trans hd.symm)
        rw [if_neg hxs]
        exact ho
    · -- attScope
      intro b hb
      have hb' : b ∈ pt.p_blocks := hb
      show ((upd B1 dP E) b).attached ≠ none ↔ b ∈ sbs
      rw [hbatt b]
      exact hinv.attScope b hb'
    · -- attGood
      intro b hb x hx
      have hb' : b ∈ pt.p_blocks := hb
      have hx' : ((upd B1 dP E) b).attached = some x := hx
      rw [hbatt b] at hx'
      exact hinv.attGood b hb' x hx'
    · -- elemP
      intro b hb0
      have hb0' : ((upd B1 dP E) b).elements ≠ [] := hb0
      rw [hbel b] at hb0'
      show b ∈ pt.p_blocks
      split_ifs at hb0' with e1 e2
      · exact e1 ▸ hdPmem
      · exact e2 ▸ hdP
      · exact hinv.elemP b hb0'
  · exact ⟨rfl, hsproc, hsintr, fun _ => rfl⟩

/-- One first-pass iteration of `split` keeps the split invariant and the
frame. -/
theorem splitMove_spec (acc : PaigeTarjan × List BlockId) (s : StateId)
    (out : PaigeTarjan × List BlockId) (h : splitMove acc s = some out)
    (hinv : SplitInv acc.1 acc.2) (hs : s ∈ acc.1.state_ids) :
    SplitInv out.1 out.2 ∧ SFrame acc.1 out.1 := by
  obtain ⟨pt, sbs⟩ := acc
  have hd : (pt.states s).block_in_p ∈ pt.p_blocks := (hinv.cover s hs).1
  have hdF : (pt.states s).block_in_p ≠ pt.fresh_block :=
    Nat.ne_of_lt (hinv.fresh _ hd)
  simp only [splitMove] at h
  by_cases hatt : (pt.blocks ((pt.states s).block_in_p)).attached = none
  · rw [if_pos hatt, splitAlloc_eq pt _ hdF] at h
    cases hu : (pt.blocks ((pt.states s).block_in_p)).upper_in_r with
    | none =>
        rw [hu] at h
        simp at h
    | some u =>
        rw [hu] at h
        have hattA : ((splitAllocOut pt ((pt.states s).block_in_p) u).blocks
            ((pt.states s).block_in_p)).attached = some pt.fresh_block := by
          show (splitAllocBlock pt ((pt.states s).block_in_p) u
            pt.fresh_block ((pt.states s).block_in_p)).attached = _
          rw [splitAllocBlock_attached, if_neg hdF, if_pos rfl]
        simp only [Option.map_some', Option.bind_eq_bind, Option.some_bind,
          hattA, Option.pure_def, Option.some.injEq] at h
        subst h
        have hinvA := splitAllocOut_spec pt ((pt.states s).block_in_p) u sbs
          hinv hd hatt
        have hframeA : SFrame pt (splitAllocOut pt ((pt.states s).block_in_p) u) :=
          ⟨rfl, fun _ => rfl, fun _ => rfl, fun _ => rfl⟩
        have hrel := splitRelink_spec
          (splitAllocOut pt ((pt.states s).block_in_p) u) (sbs ++ [(pt.states s).block_in_p])
          s pt.fresh_block hinvA hs hattA
        exact ⟨hrel.1, sframe_trans hframeA hrel.2⟩
  · rw [if_neg hatt] at h
    cases hattv : (pt.blocks ((pt.states s).block_in_p)).attached with
    | none => exact absurd hattv hatt
    | some dP =>
        simp only [Option.bind_eq_bind, Option.some_bind, hattv,
          Option.pure_def, Option.some.injEq] at h
        subst h
        exact splitRelink_spec pt sbs s dP hinv hs hattv

/-- The whole first pass of `split` keeps the split invariant and the
frame, provided the predecessor list holds live states. -/
theorem splitMove_fold_spec :
    ∀ (pred : List StateId) (acc : PaigeTarjan × List BlockId)
      (out : PaigeTarjan × List BlockId),
      List.foldlM splitMove acc pred = some out →
      SplitInv acc.1 acc.2 → (∀ x ∈ pred, x ∈ acc.1.state_ids) →
      SplitInv out.1 out.2 ∧ SFrame acc.1 out.1 := by
  intro pred
  induction pred with
  | nil =>
      intro acc out h hinv _
      rw [List.foldlM_nil] at h
      injection h with h
      subst h
      exact ⟨hinv, sframe_refl _⟩
  | cons x xs ih =>
      intro acc out h hinv hpred
      rw [List.foldlM_cons] at h
      cases hm : splitMove acc x with
      | none =>
          rw [hm] at h
          simp at h
      | some mid =>
          rw [hm] at h
          simp only [Option.bind_eq_bind, Option.some_bind] at h
          obtain ⟨hinv1, hf1⟩ :=
            splitMove_spec acc x mid hm hinv (hpred x (List.mem_cons_self x xs))
          have hrest : ∀ y ∈ xs, y ∈ mid.1.state_ids := by
            intro y hy
            rw [hf1.1]
            exact hpred y (List.mem_cons_of_mem x hy)
          obtain ⟨hinv2, hf2⟩ := ih mid out h hinv1 hrest
          exact ⟨hinv2, sframe_trans hf1 hf2⟩

theorem upd_field_elements (f : BlockId → PTBlock) (i : BlockId) (v : PTBlock)
    (hv : v.elements = (f i).elements) (b : BlockId) :
    ((upd f i v) b).elements = (f b).elements := by
  by_cases hb : b = i
  · subst hb
    rw [upd_self, hv]
  · rw [upd_of_ne _ _ hb]

theorem upd_field_attached (f : BlockId → PTBlock) (i : BlockId) (v : PTBlock)
    (hv : v.attached = (f i).attached) (b : BlockId) :
    ((upd f i v) b).attached = (f b).attached := by
  by_cases hb : b = i
  · subst hb
    rw [upd_self, hv]
  · rw [upd_of_ne _ _ hb]

/-- The result of the emptied-block branch of `splitCleanup` (the block `d`
lost all its elements: clear the attachment, drop `d` from P and from the
children of its R-parent `u`). -/
def splitCleanupOutEmpty (pt : PaigeTarjan) (d u : BlockId) : PaigeTarjan :=
  let B1 := upd pt.blocks d { pt.blocks d with attached := none }
  { pt with
    p_blocks := pt.p_blocks.erase d,
    blocks := upd B1 u { B1 u with children := (B1 u).children.erase d } }

/-- The result of the surviving-block branch of `splitCleanup` (clear the
attachment; append the R-parent `sP` to C if it now has two children). -/
def splitCleanupOutKeep (pt : PaigeTarjan) (d sP : BlockId) : PaigeTarjan :=
  { pt with
    c_blocks := if (pt.blocks sP).children.length = 2
      then pt.c_blocks ++ [sP] else pt.c_blocks,
    blocks := upd pt.blocks d { pt.blocks d with attached := none } }

theorem bind_eq_map_of_some {α : Type} (o : Option α)
    (f : α → Option PaigeTarjan) (g : α → PaigeTarjan)
    (hfg : ∀ x, f x = some (g x)) : (o >>= f) = o.map g := by
  cases o with
  | none => rfl
  | some x =>
      show f x = _
      rw [hfg x]
      rfl

theorem splitCleanup_eq (pt : PaigeTarjan) (d : BlockId) :
    splitCleanup pt d =
      if (pt.blocks d).elements = [] then
        ((pt.blocks d).upper_in_r).map (splitCleanupOutEmpty pt d)
      else
        ((pt.blocks d).upper_in_r).map (splitCleanupOutKeep pt d) := by
  have hA : (upd pt.blocks d { pt.blocks d with attached := none }) d =
      { pt.blocks d with attached := none } := upd_self _ _ _
  simp only [splitCleanup, hA]
  by_cases hemp : (pt.blocks d).elements = []
  · rw [if_pos hemp, if_pos hemp]
    exact bind_eq_map_of_some _ _ _ (fun u => rfl)
  · rw [if_neg hemp, if_neg hemp]
    refine bind_eq_map_of_some _ _ _ (fun sP => ?_)
    have hA2 : ({ pt.blocks d with attached := none } : PTBlock).children =
        (pt.blocks d).children := rfl
    by_cases hsd : sP = d
    · subst hsd
      rw [hA, hA2]
      simp only [splitCleanupOutKeep]
      by_cases hlen : (pt.blocks sP).children.length = 2
      · simp only [if_pos hlen]
        rfl
      · simp only [if_neg hlen]
        rfl
    · rw [upd_of_ne _ _ hsd]
      simp only [splitCleanupOutKeep]
      by_cases hlen : (pt.blocks sP).children.length = 2
      · simp only [if_pos hlen]
        rfl
      · simp only [if_neg hlen]
        rfl

/-- The emptied-block branch of the second pass keeps the cleanup
invariant. -/
theorem splitCleanupOutEmpty_spec (pt : PaigeTarjan) (d u : BlockId)
    (rest : List BlockId) (hinv : CleanInv pt (d :: rest))
    (hemp : (pt.blocks d).elements = []) :
    CleanInv (splitCleanupOutEmpty pt d u) rest ∧
      SFrame pt (splitCleanupOutEmpty pt d u) := by
  have hd : d ∈ pt.p_blocks := hinv.restSub (List.mem_cons_self d rest)
  have hdrest : d ∉ rest := (List.nodup_cons.mp hinv.restNd).1
  have hrestnd : rest.Nodup := (List.nodup_cons.mp hinv.restNd).2
  set A : PTBlock := { pt.blocks d with attached := none } with hAdef
  set B1 : BlockId → PTBlock := upd pt.blocks d A with hB1def
  set CH : PTBlock := { B1 u with children := (B1 u).children.erase d }
    with hCHdef
  have hbel : ∀ b, ((splitCleanupOutEmpty pt d u).blocks b).elements =
      (pt.blocks b).elements := by
    intro b
    show ((upd B1 u CH) b).elements = (pt.blocks b).elements
    rw [upd_field_elements B1 u CH rfl b, hB1def,
      upd_field_elements pt.blocks d A rfl b]
  have hbatt : ∀ b, ((splitCleanupOutEmpty pt d u).blocks b).attached =
      if b = d then none else (pt.blocks b).attached := by
    intro b
    show ((upd B1 u CH) b).attached =
      if b = d then none else (pt.blocks b).attached
    rw [upd_field_attached B1 u CH rfl b, hB1def]
    by_cases hb : b = d
    · subst hb
      rw [upd_self, if_pos rfl]
    · rw [upd_of_ne _ _ hb, if_neg hb]
  constructor
  · refine ⟨hinv.pnd.erase d, ?_, ?_, ?_, ?_, ?_, ?_, ?_, hrestnd⟩
    · intro b hb
      rw [hbel b]
      exact hinv.elnd b (List.mem_of_mem_erase hb)
    · intro x hx
      have hcov := hinv.cover x hx
      have hbd : (pt.states x).block_in_p ≠ d := by
        intro hc
        rw [hc, hemp] at hcov
        cases hcov.2
      show (pt.states x).block_in_p ∈ pt.p_blocks.erase d ∧
        x ∈ ((splitCleanupOutEmpty pt d u).blocks
          ((pt.states x).block_in_p)).elements
      rw [hbel]
      exact ⟨(List.mem_erase_of_ne hbd).mpr hcov.1, hcov.2⟩
    · intro b hb x hxm
      have hxm' : x ∈ (pt.blocks b).elements := by
        rw [← hbel b]
        exact hxm
      exact hinv.own b (List.mem_of_mem_erase hb) x hxm'
    · intro b hb hne
      obtain ⟨hbd, hbP⟩ := (hinv.pnd.mem_erase_iff).mp hb
      have hne0 : ((splitCleanupOutEmpty pt d u).blocks b).attached ≠ none := hne
      rw [hbatt b, if_neg hbd] at hne0
      rcases List.mem_cons.mp (hinv.attRest b hbP hne0) with hc | hc
      · exact absurd hc hbd
      · exact hc
    · intro b hb
      exact hinv.fresh b (List.mem_of_mem_erase hb)
    · intro b hne
      have hne' : (pt.blocks b).elements ≠ [] := by
        rw [← hbel b]
        exact hne
      have hbd : b ≠ d := by
        intro hc
        rw [hc, hemp] at hne'
        exact hne' rfl
      exact (List.mem_erase_of_ne hbd).mpr (hinv.elemP b hne')
    · intro x hx
      have hxd : x ≠ d := fun hc => hdrest (hc ▸ hx)
      exact (List.mem_erase_of_ne hxd).mpr
        (hinv.restSub (List.mem_cons_of_mem d hx))
  · exact ⟨rfl, fun _ => rfl, fun _ => rfl, fun _ => rfl⟩

/-- The surviving-block branch of the second pass keeps the cleanup
invariant. -/
theorem splitCleanupOutKeep_spec (pt : PaigeTarjan) (d sP : BlockId)
    (rest : List BlockId) (hinv : CleanInv pt (d :: rest)) :
    CleanInv (splitCleanupOutKeep pt d sP) rest ∧
      SFrame pt (splitCleanupOutKeep pt d sP) := by
  have hdrest : d ∉ rest := (List.nodup_cons.mp hinv.restNd).1
  have hrestnd : rest.Nodup := (List.nodup_cons.mp hinv.restNd).2
  have hbel : ∀ b, ((splitCleanupOutKeep pt d sP).blocks b).elements =
      (pt.blocks b).elements := by
    intro b
    show ((upd pt.blocks d { pt.blocks d with attached := none }) b).elements =
      (pt.blocks b).elements
    rw [upd_field_elements pt.blocks d
      { pt.blocks d with attached := none } rfl b]
  have hbatt : ∀ b, ((splitCleanupOutKeep pt d sP).blocks b).attached =
      if b = d then none else (pt.blocks b).attached := by
    intro b
    by_cases hb : b = d
    · subst hb
      show ((upd pt.blocks b { pt.blocks b with attached := none }) b).attached = _
      rw [upd_self, if_pos rfl]
    · show ((upd pt.blocks d { pt.blocks d with attached := none }) b).attached = _
      rw [upd_of_ne _ _ hb, if_neg hb]
  constructor
  · refine ⟨hinv.pnd, ?_, ?_, ?_, ?_, hinv.fresh, ?_, ?_, hrestnd⟩
    · intro b hb
      rw [hbel b]
      exact hinv.elnd b hb
    · intro x hx
      have hcov := hinv.cover x hx
      show (pt.states x).block_in_p ∈ pt.p_blocks ∧
        x ∈ ((splitCleanupOutKeep pt d sP).blocks
          ((pt.states x).block_in_p)).elements
      rw [hbel]
      exact hcov
    · intro b hb x hxm
      have hxm' : x ∈ (pt.blocks b).elements := by
        rw [← hbel b]
        exact hxm
      exact hinv.own b hb x hxm'
    · intro b hb hne
      have hne0 : ((splitCleanupOutKeep pt d sP).blocks b).attached ≠ none := hne
      rw [hbatt b] at hne0
      by_cases hbd : b = d
      · rw [if_pos hbd] at hne0
        exact absurd rfl hne0
      · rw [if_neg hbd] at hne0
        rcases List.mem_cons.mp (hinv.attRest b hb hne0) with hc | hc
        · exact absurd hc hbd
        · exact hc
    · intro b hne
      have hne' : (pt.blocks b).elements ≠ [] := by
        rw [← hbel b]
        exact hne
      exact hinv.elemP b hne'
    · intro x hx
      exact hinv.restSub (List.mem_cons_of_mem d hx)
  · exact ⟨rfl, fun _ => rfl, fun _ => rfl, fun _ => rfl⟩

/-- One second-pass iteration of `split` keeps the cleanup invariant and
the frame. -/
theorem splitCleanup_spec (pt : PaigeTarjan) (d : BlockId)
    (rest : List BlockId) (out : PaigeTarjan)
    (h : splitCleanup pt d = some out) (hinv : CleanInv pt (d :: rest)) :
    CleanInv out rest ∧ SFrame pt out := by
  rw [splitCleanup_eq] at h
  by_cases hemp : (pt.blocks d).elements = []
  · rw [if_pos hemp] at h
    cases hu : (pt.blocks d).upper_in_r with
    | none =>
        rw [hu] at h
        cases h
    | some u =>
        rw [hu] at h
        simp only [Option.map_some', Option.some.injEq] at h
        subst h
        exact splitCleanupOutEmpty_spec pt d u rest hinv hemp
  · rw [if_neg hemp] at h
    cases hu : (pt.blocks d).upper_in_r with
    | none =>
        rw [hu] at h
        cases h
    | some sP =>
        rw [hu] at h
        simp only [Option.map_some', Option.some.injEq] at h
        subst h
        exact splitCleanupOutKeep_spec pt d sP rest hinv

/-- The whole second pass of `split` keeps the cleanup invariant and
the frame. -/
theorem splitCleanup_fold_spec :
    ∀ (rest : List BlockId) (pt : PaigeTarjan) (out : PaigeTarjan),
      List.foldlM splitCleanup pt rest = some out →
      CleanInv pt rest → CleanInv out [] ∧ SFrame pt out := by
  intro rest
  induction rest with
  | nil =>
      intro pt out h hinv
      rw [List.foldlM_nil] at h
      injection h with h
      subst h
      exact ⟨hinv, sframe_refl _⟩
  | cons d ds ih =>
      intro pt out h hinv
      rw [List.foldlM_cons] at h
      cases hm : splitCleanup pt d with
      | none =>
          rw [hm] at h
          simp at h
      | some mid =>
          rw [hm] at h
          simp only [Option.bind_eq_bind, Option.some_bind] at h
          obtain ⟨hinv1, hf1⟩ := splitCleanup_spec pt d ds mid hm hinv
          obtain ⟨hinv2, hf2⟩ := ih mid out h hinv1
          exact ⟨hinv2, sframe_trans hf1 hf2⟩

/-- `PaigeTarjan::split` preserves the partition invariant and the frame
whenever the predecessor list holds live states. -/
theorem split_spec (pt : PaigeTarjan) (pred : List StateId)
    (out : PaigeTarjan) (h : pt.split pred = some out) (hinv : PTInv pt)
    (hpred : ∀ x ∈ pred, x ∈ pt.state_ids) :
    PTInv out ∧ SFrame pt out := by
  simp only [PaigeTarjan.split] at h
  cases h1 : List.foldlM splitMove (pt, []) pred with
  | none =>
      rw [h1] at h
      simp at h
  | some mid =>
      rw [h1] at h
      simp only [Option.bind_eq_bind, Option.some_bind] at h
      obtain ⟨hinv1, hf1⟩ := splitMove_fold_spec pred (pt, []) mid h1
        (splitInv_of_ptInv hinv) hpred
      obtain ⟨ptm, sbs⟩ := mid
      obtain ⟨hinv2, hf2⟩ := splitCleanup_fold_spec sbs ptm out h
        (cleanInv_of_splitInv hinv1)
      exact ⟨ptInv_of_cleanInv hinv2, sframe_trans hf1 hf2⟩

theorem upd_state_frame (f : StateId → PTState) (i : StateId) (v : PTState)
    (h1 : v.block_in_p = (f i).block_in_p) (h2 : v.process = (f i).process)
    (h3 : v.in_transitions = (f i).in_transitions) :
    ∀ x, ((upd f i v) x).block_in_p = (f x).block_in_p ∧
      ((upd f i v) x).process = (f x).process ∧
      ((upd f i v) x).in_transitions = (f x).in_transitions := by
  intro x
  by_cases hx : x = i
  · subst hx
    rw [upd_self]
    exact ⟨h1, h2, h3⟩
  · rw [upd_of_ne _ _ hx]
    exact ⟨rfl, rfl, rfl⟩

theorem upd_trans_lhs (f : TransId → PTTrans) (i : TransId) (v : PTTrans)
    (hv : v.lhs = (f i).lhs) : ∀ t, ((upd f i v) t).lhs = (f t).lhs := by
  intro t
  by_cases ht : t = i
  · subst ht
    rw [upd_self]
    exact hv
  · rw [upd_of_ne _ _ ht]

/-- One in-transition of step 3 only touches cells and `mark3`, and only
adds the transition's source to the predecessor list. -/
theorem refineStep3Trans_spec (label : String)
    (acc : PaigeTarjan × List StateId) (tId : TransId) :
    Untouched acc.1 (refineStep3Trans label acc tId).1 ∧
    ∀ y ∈ (refineStep3Trans label acc tId).2,
      y ∈ acc.2 ∨ y = (acc.1.transes tId).lhs := by
  obtain ⟨pt, preds⟩ := acc
  simp only [refineStep3Trans]
  by_cases hl : ((pt.transes tId).label == label) = true
  · rw [if_pos hl]
    by_cases hm : (pt.states ((pt.transes tId).lhs)).mark3 = true
    · rw [if_pos hm]
      exact ⟨⟨rfl, rfl, rfl, rfl, fun _ => rfl, fun _ => rfl, fun _ => rfl,
        fun _ => rfl⟩, fun y hy => Or.inl hy⟩
    · rw [if_neg hm]
      constructor
      · have hsf := upd_state_frame pt.states ((pt.transes tId).lhs)
          { pt.states ((pt.transes tId).lhs) with mark3 := true } rfl rfl rfl
        exact ⟨rfl, rfl, rfl, rfl, fun s => (hsf s).1, fun s => (hsf s).2.1,
          fun s => (hsf s).2.2, fun _ => rfl⟩
      · intro y hy
        rcases List.mem_append.mp hy with hy1 | hy1
        · exact Or.inl hy1
        · exact Or.inr (List.mem_singleton.mp hy1)
  · rw [if_neg hl]
    exact ⟨untouched_refl _, fun y hy => Or.inl hy⟩

theorem refineStep3Trans_fold (label : String) :
    ∀ (l : List TransId) (acc : PaigeTarjan × List StateId),
      Untouched acc.1 (l.foldl (refineStep3Trans label) acc).1 ∧
      ∀ y ∈ (l.foldl (refineStep3Trans label) acc).2,
        y ∈ acc.2 ∨ ∃ tId ∈ l, y = (acc.1.transes tId).lhs := by
  intro l
  induction l with
  | nil =>
      intro acc
      rw [List.foldl_nil]
      exact ⟨untouched_refl _, fun y hy => Or.inl hy⟩
  | cons t ts ih =>
      intro acc
      rw [List.foldl_cons]
      obtain ⟨hu1, hp1⟩ := refineStep3Trans_spec label acc t
      obtain ⟨hu2, hp2⟩ := ih (refineStep3Trans label acc t)
      refine ⟨untouched_trans hu1 hu2, ?_⟩
      intro y hy
      rcases hp2 y hy with hy1 | ⟨tId, htId, hey⟩
      · rcases hp1 y hy1 with hy2 | hy2
        · exact Or.inl hy2
        · exact Or.inr ⟨t, List.mem_cons_self t ts, hy2⟩
      · rw [hu1.2.2.2.2.2.2.2 tId] at hey
        exact Or.inr ⟨tId, List.mem_cons_of_mem t htId, hey⟩

/-- Step 3 for all elements of `B`: the partition data is untouched and the
collected predecessors are live states. -/
theorem refineStep3_states_fold (label : String) :
    ∀ (l : List StateId) (acc : PaigeTarjan × List StateId),
      InTClosed acc.1 → (∀ sP ∈ l, sP ∈ acc.1.state_ids) →
      Untouched acc.1 (l.foldl (refineStep3State label) acc).1 ∧
      ∀ y ∈ (l.foldl (refineStep3State label) acc).2,
        y ∈ acc.2 ∨ y ∈ acc.1.state_ids := by
  intro l
  induction l with
  | nil =>
      intro acc _ _
      rw [List.foldl_nil]
      exact ⟨untouched_refl _, fun y hy => Or.inl hy⟩
  | cons sP rest ih =>
      intro acc hcl hids
      rw [List.foldl_cons]
      obtain ⟨hu1, hp1⟩ :=
        refineStep3Trans_fold label ((acc.1.states sP).in_transitions) acc
      have hu1' : Untouched acc.1 (refineStep3State label acc sP).1 := hu1
      have hp1' : ∀ y ∈ (refineStep3State label acc sP).2,
          y ∈ acc.2 ∨ y ∈ acc.1.state_ids := by
        intro y hy
        rcases hp1 y hy with hy1 | ⟨tId, htId, hey⟩
        · exact Or.inl hy1
        · exact Or.inr (hey ▸ hcl sP (hids sP (List.mem_cons_self sP rest)) tId htId)
      obtain ⟨hu2, hp2⟩ := ih (refineStep3State label acc sP)
        (inTClosed_of_sframe (sframe_of_untouched hu1') hcl)
        (fun x hx => by
          rw [hu1'.2.2.1]
          exact hids x (List.mem_cons_of_mem sP hx))
      refine ⟨untouched_trans hu1' hu2, ?_⟩
      intro y hy
      rcases hp2 y hy with hy1 | hy1
      · exact hp1' y hy1
      · rw [hu1'.2.2.1] at hy1
        exact Or.inr hy1

/-- One in-transition of step 5 only touches `mark5`, and only adds the
transition's source to the limited-predecessor list. -/
theorem refineStep5Trans_spec (label : String)
    (acc : PaigeTarjan × List StateId) (tId : TransId) :
    Untouched acc.1 (refineStep5Trans label acc tId).1 ∧
    ∀ y ∈ (refineStep5Trans label acc tId).2,
      y ∈ acc.2 ∨ y = (acc.1.transes tId).lhs := by
  obtain ⟨pt, preds⟩ := acc
  simp only [refineStep5Trans]
  by_cases hl : ((pt.transes tId).label == label) = true
  · rw [if_pos hl]
    by_cases hm : (pt.cells ((pt.states ((pt.transes tId).lhs)).count) ==
        pt.cells ((pt.transes tId).count) &&
        !(pt.states ((pt.transes tId).lhs)).mark5) = true
    · rw [if_pos hm]
      constructor
      · have hsf := upd_state_frame pt.states ((pt.transes tId).lhs)
          { pt.states ((pt.transes tId).lhs) with mark5 := true } rfl rfl rfl
        exact ⟨rfl, rfl, rfl, rfl, fun s => (hsf s).1, fun s => (hsf s).2.1,
          fun s => (hsf s).2.2, fun _ => rfl⟩
      · intro y hy
        rcases List.mem_append.mp hy with hy1 | hy1
        · exact Or.inl hy1
        · exact Or.inr (List.mem_singleton.mp hy1)
    · rw [if_neg hm]
      exact ⟨untouched_refl _, fun y hy => Or.inl hy⟩
  · rw [if_neg hl]
    exact ⟨untouched_refl _, fun y hy => Or.inl hy⟩

theorem refineStep5Trans_fold (label : String) :
    ∀ (l : List TransId) (acc : PaigeTarjan × List StateId),
      Untouched acc.1 (l.foldl (refineStep5Trans label) acc).1 ∧
      ∀ y ∈ (l.foldl (refineStep5Trans label) acc).2,
        y ∈ acc.2 ∨ ∃ tId ∈ l, y = (acc.1.transes tId).lhs := by
  intro l
  induction l with
  | nil =>
      intro acc
      rw [List.foldl_nil]
      exact ⟨untouched_refl _, fun y hy => Or.inl hy⟩
  | cons t ts ih =>
      intro acc
      rw [List.foldl_cons]
      obtain ⟨hu1, hp1⟩ := refineStep5Trans_spec label acc t
      obtain ⟨hu2, hp2⟩ := ih (refineStep5Trans label acc t)
      refine ⟨untouched_trans hu1 hu2, ?_⟩
      intro y hy
      rcases hp2 y hy with hy1 | ⟨tId, htId, hey⟩
      · rcases hp1 y hy1 with hy2 | hy2
        · exact Or.inl hy2
        · exact Or.inr ⟨t, List.mem_cons_self t ts, hy2⟩
      · rw [hu1.2.2.2.2.2.2.2 tId] at hey
        exact Or.inr ⟨tId, List.mem_cons_of_mem t htId, hey⟩

/-- Step 5 for all elements of `B'`: the partition data is untouched and
the collected limited predecessors are live states. -/
theorem refineStep5_states_fold (label : String) :
    ∀ (l : List StateId) (acc : PaigeTarjan × List StateId),
      InTClosed acc.1 → (∀ sP ∈ l, sP ∈ acc.1.state_ids) →
      Untouched acc.1 (l.foldl (refineStep5State label) acc).1 ∧
      ∀ y ∈ (l.foldl (refineStep5State label) acc).2,
        y ∈ acc.2 ∨ y ∈ acc.1.state_ids := by
  intro l
  induction l with
  | nil =>
      intro acc _ _
      rw [List.foldl_nil]
      exact ⟨untouched_refl _, fun y hy => Or.inl hy⟩
  | cons sP rest ih =>
      intro acc hcl hids
      rw [List.foldl_cons]
      obtain ⟨hu1, hp1⟩ :=
        refineStep5Trans_fold label ((acc.1.states sP).in_transitions) acc
      have hu1' : Untouched acc.1 (refineStep5State label acc sP).1 := hu1
      have hp1' : ∀ y ∈ (refineStep5State label acc sP).2,
          y ∈ acc.2 ∨ y ∈ acc.1.state_ids := by
        intro y hy
        rcases hp1 y hy with hy1 | ⟨tId, htId, hey⟩
        · exact Or.inl hy1
        · exact Or.inr (hey ▸ hcl sP (hids sP (List.mem_cons_self sP rest)) tId htId)
      obtain ⟨hu2, hp2⟩ := ih (refineStep5State label acc sP)
        (inTClosed_of_sframe (sframe_of_untouched hu1') hcl)
        (fun x hx => by
          rw [hu1'.2.2.1]
          exact hids x (List.mem_cons_of_mem sP hx))
      refine ⟨untouched_trans hu1' hu2, ?_⟩
      intro y hy
      rcases hp2 y hy with hy1 | hy1
      · exact hp1' y hy1
      · rw [hu1'.2.2.1] at hy1
        exact Or.inr hy1

/-- One in-transition of step 7 only touches cells and the transition's
counter alias. -/
theorem refineStep7Trans_spec (label : String) (pt : PaigeTarjan)
    (tId : TransId) (out : PaigeTarjan)
    (h : refineStep7Trans label pt tId = some out) : Untouched pt out := by
  simp only [refineStep7Trans] at h
  by_cases hl : ((pt.transes tId).label == label) = true
  · rw [if_pos hl] at h
    by_cases hz : pt.cells ((pt.transes tId).count) = 0
    · rw [if_pos hz] at h
      cases h
    · rw [if_neg hz] at h
      simp only [Option.pure_def, Option.some.injEq] at h
      subst h
      have htf := upd_trans_lhs pt.transes tId
        { pt.transes tId with
          count := (pt.states ((pt.transes tId).lhs)).count } rfl
      exact ⟨rfl, rfl, rfl, rfl, fun _ => rfl, fun _ => rfl, fun _ => rfl,
        fun t => htf t⟩
  · rw [if_neg hl] at h
    simp only [Option.pure_def, Option.some.injEq] at h
    subst h
    exact untouched_refl _

theorem refineStep7Trans_fold (label : String) :
    ∀ (l : List TransId) (pt : PaigeTarjan) (out : PaigeTarjan),
      List.foldlM (refineStep7Trans label) pt l = some out →
      Untouched pt out := by
  intro l
  induction l with
  | nil =>
      intro pt out h
      rw [List.foldlM_nil] at h
      injection h with h
      subst h
      exact untouched_refl _
  | cons t ts ih =>
      intro pt out h
      rw [List.foldlM_cons] at h
      cases hm : refineStep7Trans label pt t with
      | none =>
          rw [hm] at h
          simp at h
      | some mid =>
          rw [hm] at h
          simp only [Option.bind_eq_bind, Option.some_bind] at h
          exact untouched_trans (refineStep7Trans_spec label pt t mid hm)
            (ih mid out h)

theorem refineStep7_states_fold (label : String) :
    ∀ (l : List StateId) (pt : PaigeTarjan) (out : PaigeTarjan),
      List.foldlM (refineStep7State label) pt l = some out →
      Untouched pt out := by
  intro l
  induction l with
  | nil =>
      intro pt out h
      rw [List.foldlM_nil] at h
      injection h with h
      subst h
      exact untouched_refl _
  | cons sP rest ih =>
      intro pt out h
      rw [List.foldlM_cons] at h
      cases hm : refineStep7State label pt sP with
      | none =>
          rw [hm] at h
          simp at h
      | some mid =>
          rw [hm] at h
          simp only [Option.bind_eq_bind, Option.some_bind] at h
          exact untouched_trans
            (refineStep7Trans_fold label _ pt mid hm) (ih mid out h)

/-- The end-of-label cleanup only touches marks, counter aliases and
cells. -/
theorem refineCleanupState_spec (pt : PaigeTarjan) (sP : StateId) :
    Untouched pt (refineCleanupState pt sP) := by
  have hsf := upd_state_frame pt.states sP
    ({ pt.states sP with mark3 := false, mark5 := false, count := pt.fresh_cell } : PTState)
    rfl rfl rfl
  exact ⟨rfl, rfl, rfl, rfl, fun s => (hsf s).1, fun s => (hsf s).2.1,
    fun s => (hsf s).2.2, fun _ => rfl⟩

theorem refineCleanup_states_fold :
    ∀ (l : List StateId) (pt : PaigeTarjan),
      Untouched pt (l.foldl refineCleanupState pt) := by
  intro l
  induction l with
  | nil =>
      intro pt
      rw [List.foldl_nil]
      exact untouched_refl _
  | cons sP rest ih =>
      intro pt
      rw [List.foldl_cons]
      exact untouched_trans (refineCleanupState_spec pt sP)
        (ih (refineCleanupState pt sP))

/-- One label iteration of `refine` (steps 3-7 and the cleanup) preserves
the partition invariant. -/
theorem refineLabel_spec (pt : PaigeTarjan) (b : BlockId) (label : String)
    (out : PaigeTarjan) (h : pt.refineLabel b label = some out)
    (hinv : PTInv pt) (hcl : InTClosed pt) :
    PTInv out ∧ InTClosed out ∧ SFrame pt out := by
  simp only [PaigeTarjan.refineLabel] at h
  have hbpids : ∀ sP ∈ (pt.blocks b).elements, sP ∈ pt.state_ids := by
    intro sP hsP
    by_cases hbe : (pt.blocks b).elements = []
    · rw [hbe] at hsP
      cases hsP
    · exact (hinv.own b (hinv.elemP b hbe) sP hsP).1
  obtain ⟨hu3, hp3⟩ := refineStep3_states_fold label (pt.blocks b).elements
    (pt, []) hcl hbpids
  rcases hF3 : (pt.blocks b).elements.foldl (refineStep3State label) (pt, [])
    with ⟨pt3, preds3⟩
  simp only [hF3] at h hu3 hp3
  cases hsp1 : pt3.split preds3 with
  | none =>
      rw [hsp1] at h
      simp at h
  | some pt4 =>
  rw [hsp1] at h
  simp only [Option.bind_eq_bind, Option.some_bind] at h
  have hinv3 : PTInv pt3 := ptInv_of_untouched hu3 hinv
  have hcl3 : InTClosed pt3 :=
    inTClosed_of_sframe (sframe_of_untouched hu3) hcl
  have hpred3 : ∀ x ∈ preds3, x ∈ pt3.state_ids := by
    intro x hx
    rw [hu3.2.2.1]
    rcases hp3 x hx with h0 | h1
    · cases h0
    · exact h1
  obtain ⟨hinv4, hf4⟩ := split_spec pt3 preds3 pt4 hsp1 hinv3 hpred3
  have hcl4 : InTClosed pt4 := inTClosed_of_sframe hf4 hcl3
  have hbp4 : ∀ sP ∈ (pt.blocks b).elements, sP ∈ pt4.state_ids := by
    intro sP hsP
    rw [hf4.1, hu3.2.2.1]
    exact hbpids sP hsP
  obtain ⟨hu5, hp5⟩ := refineStep5_states_fold label (pt.blocks b).elements
    (pt4, []) hcl4 hbp4
  rcases hF5 : (pt.blocks b).elements.foldl (refineStep5State label) (pt4, [])
    with ⟨pt5, preds5⟩
  simp only [hF5] at h hu5 hp5
  cases hsp2 : pt5.split preds5 with
  | none =>
      rw [hsp2] at h
      simp at h
  | some pt6 =>
  rw [hsp2] at h
  simp only [Option.bind_eq_bind, Option.some_bind] at h
  have hinv5 : PTInv pt5 := ptInv_of_untouched hu5 hinv4
  have hcl5 : InTClosed pt5 :=
    inTClosed_of_sframe (sframe_of_untouched hu5) hcl4
  have hpred5 : ∀ x ∈ preds5, x ∈ pt5.state_ids := by
    intro x hx
    rw [hu5.2.2.1]
    rcases hp5 x hx with h0 | h1
    · cases h0
    · exact h1
  obtain ⟨hinv6, hf6⟩ := split_spec pt5 preds5 pt6 hsp2 hinv5 hpred5
  have hcl6 : InTClosed pt6 := inTClosed_of_sframe hf6 hcl5
  cases h7 : List.foldlM (refineStep7State label) pt6 (pt.blocks b).elements with
  | none =>
      rw [h7] at h
      simp at h
  | some pt7 =>
  rw [h7] at h
  simp only [Option.bind_eq_bind, Option.some_bind, Option.pure_def,
    Option.some.injEq] at h
  subst h
  have hu7 := refineStep7_states_fold label (pt.blocks b).elements pt6 pt7 h7
  have hu8 := refineCleanup_states_fold (pt.blocks b).elements pt7
  have hinv7 : PTInv pt7 := ptInv_of_untouched hu7 hinv6
  have hcl7 : InTClosed pt7 :=
    inTClosed_of_sframe (sframe_of_untouched hu7) hcl6
  refine ⟨ptInv_of_untouched hu8 hinv7,
    inTClosed_of_sframe (sframe_of_untouched hu8) hcl7, ?_⟩
  exact sframe_trans (sframe_of_untouched hu3) (sframe_trans hf4
    (sframe_trans (sframe_of_untouched hu5) (sframe_trans hf6
      (sframe_trans (sframe_of_untouched hu7) (sframe_of_untouched hu8)))))

/-- The label loop of `refine` preserves the partition invariant. -/
theorem refineLabel_fold_spec (b : BlockId) :
    ∀ (ls : List String) (pt : PaigeTarjan) (out : PaigeTarjan),
      List.foldlM (fun p label => p.refineLabel b label) pt ls = some out →
      PTInv pt → InTClosed pt → PTInv out ∧ InTClosed out ∧ SFrame pt out := by
  intro ls
  induction ls with
  | nil =>
      intro pt out h hinv hcl
      rw [List.foldlM_nil] at h
      injection h with h
      subst h
      exact ⟨hinv, hcl, sframe_refl _⟩
  | cons l rest ih =>
      intro pt out h hinv hcl
      rw [List.foldlM_cons] at h
      cases hm : pt.refineLabel b l with
      | none =>
          rw [hm] at h
          simp at h
      | some mid =>
          rw [hm] at h
          simp only [Option.bind_eq_bind, Option.some_bind] at h
          obtain ⟨hinv1, hcl1, hf1⟩ := refineLabel_spec pt b l mid hm hinv hcl
          obtain ⟨hinv2, hcl2, hf2⟩ := ih mid out h hinv1 hcl1
          exact ⟨hinv2, hcl2, sframe_trans hf1 hf2⟩

/-- Steps 1-2 of `PaigeTarjan::refine` (divider selection, R update) with
the aliasing resolved; validated against `refine` by `refine_eq_cons`. -/
def refinePre (pt : PaigeTarjan) (divider : BlockId) (rest : List BlockId)
    (c1 c2 : BlockId) : PaigeTarjan :=
  let smaller :=
    if ((pt.blocks c1).elements).length < ((pt.blocks c2).elements).length
    then c1 else c2
  let B1 := upd pt.blocks divider
    { pt.blocks divider with
      children := (pt.blocks divider).children.erase smaller }
  let B2 := upd B1 pt.fresh_block { PTBlock.new with children := [smaller] }
  let B3 := upd B2 smaller { B2 smaller with upper_in_r := some pt.fresh_block }
  { pt with
    c_blocks :=
      if 1 < ((B3 divider).children).length then rest ++ [divider] else rest,
    r_blocks := pt.r_blocks ++ [pt.fresh_block],
    blocks := B3,
    fresh_block := pt.fresh_block + 1 }

theorem refine_eq_cons (pt : PaigeTarjan) (divider : BlockId)
    (rest : List BlockId) (c1 c2 : BlockId)
    (hc : pt.c_blocks = divider :: rest)
    (h1 : ((pt.blocks divider).children)[0]? = some c1)
    (h2 : ((pt.blocks divider).children)[1]? = some c2) :
    pt.refine = List.foldlM
      (fun p label => p.refineLabel
        (if ((pt.blocks c1).elements).length < ((pt.blocks c2).elements).length
         then c1 else c2) label)
      (refinePre pt divider rest c1 c2) pt.labels := by
  simp only [PaigeTarjan.refine, refinePre, hc, List.head?_cons,
    List.tail_cons, h1, h2, Option.bind_eq_bind, Option.some_bind]
  split_ifs <;> rfl

/-- Steps 1-2 of `refine` preserve the partition invariant. -/
theorem refinePre_spec (pt : PaigeTarjan) (divider : BlockId)
    (rest : List BlockId) (c1 c2 : BlockId) (hinv : PTInv pt)
    (hcl : InTClosed pt) :
    PTInv (refinePre pt divider rest c1 c2) ∧
      InTClosed (refinePre pt divider rest c1 c2) ∧
      SFrame pt (refinePre pt divider rest c1 c2) := by
  set smaller :=
    (if ((pt.blocks c1).elements).length < ((pt.blocks c2).elements).length
     then c1 else c2) with hsm
  set B1 : BlockId → PTBlock := upd pt.blocks divider
    { pt.blocks divider with
      children := (pt.blocks divider).children.erase smaller } with hB1
  set B2 : BlockId → PTBlock :=
    upd B1 pt.fresh_block { PTBlock.new with children := [smaller] } with hB2
  set B3 : BlockId → PTBlock :=
    upd B2 smaller { B2 smaller with upper_in_r := some pt.fresh_block }
    with hB3
  have hblk : (refinePre pt divider rest c1 c2).blocks = B3 := rfl
  have hsts : (refinePre pt divider rest c1 c2).states = pt.states := rfl
  have hpb : (refinePre pt divider rest c1 c2).p_blocks = pt.p_blocks := rfl
  have hfr : (refinePre pt divider rest c1 c2).fresh_block =
      pt.fresh_block + 1 := rfl
  have htr : (refinePre pt divider rest c1 c2).transes = pt.transes := rfl
  have hids : (refinePre pt divider rest c1 c2).state_ids =
      pt.state_ids := rfl
  have hel : ∀ bb, (B3 bb).elements =
      if bb = pt.fresh_block then [] else (pt.blocks bb).elements := by
    intro bb
    rw [hB3, upd_field_elements B2 smaller
      { B2 smaller with upper_in_r := some pt.fresh_block } rfl bb, hB2]
    by_cases hbF : bb = pt.fresh_block
    · subst hbF
      rw [upd_self, if_pos rfl]
      rfl
    · rw [upd_of_ne _ _ hbF, if_neg hbF, hB1,
        upd_field_elements pt.blocks divider
          { pt.blocks divider with
            children := (pt.blocks divider).children.erase smaller } rfl bb]
  have hatt : ∀ bb, (B3 bb).attached =
      if bb = pt.fresh_block then none else (pt.blocks bb).attached := by
    intro bb
    rw [hB3, upd_field_attached B2 smaller
      { B2 smaller with upper_in_r := some pt.fresh_block } rfl bb, hB2]
    by_cases hbF : bb = pt.fresh_block
    · subst hbF
      rw [upd_self, if_pos rfl]
      rfl
    · rw [upd_of_ne _ _ hbF, if_neg hbF, hB1,
        upd_field_attached pt.blocks divider
          { pt.blocks divider with
            children := (pt.blocks divider).children.erase smaller } rfl bb]
  have hfsr : SFrame pt (refinePre pt divider rest c1 c2) := by
    refine ⟨hids, ?_, ?_, ?_⟩
    · intro s
      rw [hsts]
    · intro s
      rw [hsts]
    · intro t
      rw [htr]
  refine ⟨?_, inTClosed_of_sframe hfsr hcl, hfsr⟩
  have hne : ∀ b ∈ pt.p_blocks, b ≠ pt.fresh_block :=
    fun b hb => Nat.ne_of_lt (hinv.fresh b hb)
  refine ⟨?_, ?_, ?_, ?_, ?_, ?_, ?_⟩
  · rw [hpb]
    exact hinv.pnd
  · intro b hb
    rw [hpb] at hb
    rw [hblk, hel b, if_neg (hne b hb)]
    exact hinv.elnd b hb
  · intro x hx
    rw [hids] at hx
    have hcov := hinv.cover x hx
    rw [hsts, hpb, hblk, hel, if_neg (hne _ hcov.1)]
    exact hcov
  · intro b hb x hxm
    rw [hpb] at hb
    rw [hblk, hel b, if_neg (hne b hb)] at hxm
    rw [hids, hsts]
    exact hinv.own b hb x hxm
  · intro b hb
    rw [hpb] at hb
    rw [hblk, hatt b, if_neg (hne b hb)]
    exact hinv.att b hb
  · intro b hb
    rw [hpb] at hb
    rw [hfr]
    exact Nat.lt_succ_of_lt (hinv.fresh b hb)
  · intro b hb0
    rw [hblk, hel b] at hb0
    rw [hpb]
    by_cases hbF : b = pt.fresh_block
    · rw [if_pos hbF] at hb0
      exact absurd rfl hb0
    · rw [if_neg hbF] at hb0
      exact hinv.elemP b hb0

/-- `PaigeTarjan::refine` preserves the partition invariant. -/
theorem refine_spec (pt : PaigeTarjan) (out : PaigeTarjan)
    (h : pt.refine = some out) (hinv : PTInv pt) (hcl : InTClosed pt) :
    PTInv out ∧ InTClosed out ∧ SFrame pt out := by
  cases hc : pt.c_blocks with
  | nil =>
      simp only [PaigeTarjan.refine, hc, List.head?_nil,
        Option.bind_eq_bind, Option.none_bind] at h
      cases h
  | cons divider rest =>
      cases h1 : ((pt.blocks divider).children)[0]? with
      | none =>
          simp only [PaigeTarjan.refine, hc, List.head?_cons, List.tail_cons,
            h1, Option.bind_eq_bind, Option.some_bind, Option.none_bind] at h
          cases h
      | some c1 =>
          cases h2 : ((pt.blocks divider).children)[1]? with
          | none =>
              simp only [PaigeTarjan.refine, hc, List.head?_cons,
                List.tail_cons, h1, h2, Option.bind_eq_bind, Option.some_bind,
                Option.none_bind] at h
              cases h
          | some c2 =>
              rw [refine_eq_cons pt divider rest c1 c2 hc h1 h2] at h
              obtain ⟨hPre1, hPre2, hPre3⟩ :=
                refinePre_spec pt divider rest c1 c2 hinv hcl
              obtain ⟨hi, hcl2, hf⟩ := refineLabel_fold_spec _ pt.labels
                (refinePre pt divider rest c1 c2) out h hPre1 hPre2
              exact ⟨hi, hcl2, sframe_trans hPre3 hf⟩

/-- The refinement loop preserves the partition invariant. -/
theorem ptLoop_spec :
    ∀ (fuel : Nat) (pt out : PaigeTarjan), ptLoop fuel pt = some out →
      PTInv pt → InTClosed pt → PTInv out ∧ InTClosed out ∧ SFrame pt out := by
  intro fuel
  induction fuel with
  | zero =>
      intro pt out h hinv hcl
      rw [ptLoop] at h
      split at h
      · injection h with h
        subst h
        exact ⟨hinv, hcl, sframe_refl _⟩
      · cases h
  | succ fuel ih =>
      intro pt out h hinv hcl
      rw [ptLoop] at h
      split at h
      · injection h with h
        subst h
        exact ⟨hinv, hcl, sframe_refl _⟩
      · cases hr : pt.refine with
        | none =>
            rw [hr] at h
            simp at h
        | some mid =>
            rw [hr] at h
            simp only [Option.bind_eq_bind, Option.some_bind] at h
            obtain ⟨hi1, hc1, hf1⟩ := refine_spec pt mid hr hinv hcl
            obtain ⟨hi2, hc2, hf2⟩ := ih mid out h hi1 hc1
            exact ⟨hi2, hc2, sframe_trans hf1 hf2⟩

/-! ### The constructed engine satisfies the partition invariant -/

theorem mem_dedupKeepFirst {α : Type} [DecidableEq α] {xs : List α} {y : α} :
    y ∈ dedupKeepFirst xs ↔ y ∈ xs := by
  unfold dedupKeepFirst
  rw [mem_insertAllD]
  simp

/-- The bucket keys of `PaigeTarjan::new_with_labels`. -/
def ptKeys (procs : List Process) (trs : List Transition) :
    List (List String) :=
  dedupKeepFirst (procs.map (outLabelKey trs))

/-- The bucket index of a state. -/
def ptGroupOf (procs : List Process) (trs : List Transition) (p : Process) :
    Nat :=
  List.indexOf (outLabelKey trs p) (ptKeys procs trs)

theorem ptInit_state_ids (procs : List Process) (trs : List Transition) :
    (ptInit procs trs).state_ids = List.range procs.length := rfl

theorem ptInit_p_blocks (procs : List Process) (trs : List Transition) :
    (ptInit procs trs).p_blocks =
      (List.range (ptKeys procs trs).length).map (2 + ·) := rfl

theorem ptInit_states_eq (procs : List Process) (trs : List Transition)
    (i : Nat) (h : i < procs.length) :
    (ptInit procs trs).states i =
      { process := procs[i],
        in_transitions := (List.range trs.length).filter
          (fun j => trs[j]!.2.2 == procs[i]),
        out_transitions := (List.range trs.length).filter
          (fun j => trs[j]!.1 == procs[i]),
        mark3 := false, mark5 := false, count := i,
        block_in_p := 2 + ptGroupOf procs trs procs[i] } := by
  simp only [ptInit, ptGroupOf, ptKeys]
  rw [dif_pos h]

theorem ptInit_transes_eq (procs : List Process) (trs : List Transition)
    (j : Nat) (h : j < trs.length) :
    (ptInit procs trs).transes j =
      { label := trs[j].2.1, lhs := idOf procs trs[j].1,
        count := procs.length + idOf procs trs[j].1 } := by
  simp only [ptInit]
  rw [dif_pos h]

theorem ptInit_blocks_group (procs : List Process) (trs : List Transition)
    (g : Nat) :
    (ptInit procs trs).blocks (2 + g) =
      if 2 + g < 2 + (ptKeys procs trs).length then
        { elements := (List.range procs.length).filter (fun i =>
            ptGroupOf procs trs procs[i]! == (2 + g) - 2),
          children := [], attached := none, upper_in_r := some 0 }
      else default := by
  have h0 : (2:Nat) + g ≠ 0 := by omega
  have h1 : (2:Nat) + g ≠ 1 := by omega
  simp only [ptInit, ptGroupOf, ptKeys]
  rw [if_neg h0, if_neg h1]

theorem ptInit_blocks_elements (procs : List Process) (trs : List Transition) :
    ∀ b : Nat, ((ptInit procs trs).blocks b).elements =
      if h : 2 ≤ b ∧ b < 2 + (ptKeys procs trs).length then
        (List.range procs.length).filter (fun i =>
          ptGroupOf procs trs procs[i]! == b - 2)
      else [] := by
  intro b
  match b with
  | 0 =>
      have hc : ¬((2:Nat) ≤ 0 ∧ (0:Nat) < 2 + (ptKeys procs trs).length) := by
        omega
      rw [dif_neg hc]
      rfl
  | 1 =>
      have hc : ¬((2:Nat) ≤ 1 ∧ (1:Nat) < 2 + (ptKeys procs trs).length) := by
        omega
      rw [dif_neg hc]
      rfl
  | (g + 2) =>
      have hb : g + 2 = 2 + g := by omega
      rw [hb, ptInit_blocks_group]
      by_cases hg : g < (ptKeys procs trs).length
      · have hclt : 2 + g < 2 + (ptKeys procs trs).length := by omega
        have hcle : 2 ≤ 2 + g := by omega
        rw [if_pos hclt, dif_pos ⟨hcle, hclt⟩]
      · have hclt : ¬(2 + g < 2 + (ptKeys procs trs).length) := by omega
        rw [if_neg hclt, dif_neg (fun hc => hclt hc.2)]
        rfl

theorem ptInit_blocks_attached (procs : List Process) (trs : List Transition) :
    ∀ b : Nat, ((ptInit procs trs).blocks b).attached = none := by
  intro b
  match b with
  | 0 => rfl
  | 1 => rfl
  | (g + 2) =>
      have hb : g + 2 = 2 + g := by omega
      rw [hb, ptInit_blocks_group]
      by_cases hg : 2 + g < 2 + (ptKeys procs trs).length
      · rw [if_pos hg]
      · rw [if_neg hg]
        rfl

theorem indexOf_lt_length_of_mem {α : Type} [BEq α] [LawfulBEq α] {a : α}
    {l : List α} (h : a ∈ l) : l.indexOf a < l.length :=
  List.findIdx_lt_length_of_exists ⟨a, h, beq_self_eq_true a⟩

theorem ptGroupOf_lt (procs : List Process) (trs : List Transition)
    (p : Process) (hp : p ∈ procs) :
    ptGroupOf procs trs p < (ptKeys procs trs).length := by
  unfold ptGroupOf
  apply indexOf_lt_length_of_mem
  unfold ptKeys
  rw [mem_dedupKeepFirst]
  exact List.mem_map.mpr ⟨p, hp, rfl⟩

/-- `PaigeTarjan::new_with_labels` establishes the partition invariant, has
closed in-transitions, an injective process decoration, and a state per
input process. -/
theorem ptInit_spec (procs : List Process) (trs : List Transition)
    (hnd : procs.Nodup) (hsrc : ∀ tr ∈ trs, tr.1 ∈ procs) :
    PTInv (ptInit procs trs) ∧ InTClosed (ptInit procs trs) ∧
      ProcInj (ptInit procs trs) ∧
      (∀ p ∈ procs, ∃ s ∈ (ptInit procs trs).state_ids,
        ((ptInit procs trs).states s).process = p) := by
  have hmemP : ∀ b, b ∈ (ptInit procs trs).p_blocks ↔
      ∃ g : Nat, g < (ptKeys procs trs).length ∧ b = 2 + g := by
    intro b
    rw [ptInit_p_blocks]
    constructor
    · intro hb
      obtain ⟨g, hg, he⟩ := List.mem_map.mp hb
      exact ⟨g, List.mem_range.mp hg, he.symm⟩
    · rintro ⟨g, hg, rfl⟩
      exact List.mem_map.mpr ⟨g, List.mem_range.mpr hg, rfl⟩
  have hbip : ∀ i (h : i < procs.length),
      ((ptInit procs trs).states i).block_in_p =
        2 + ptGroupOf procs trs procs[i] := by
    intro i h
    rw [ptInit_states_eq procs trs i h]
  refine ⟨⟨?_, ?_, ?_, ?_, ?_, ?_, ?_⟩, ?_, ?_, ?_⟩
  · -- pnd
    rw [ptInit_p_blocks]
    exact (List.nodup_range _).map (fun a b hab => Nat.add_left_cancel hab)
  · -- elnd
    intro b hb
    rw [ptInit_blocks_elements]
    by_cases h : 2 ≤ b ∧ b < 2 + (ptKeys procs trs).length
    · rw [dif_pos h]
      exact (List.nodup_range _).filter _
    · rw [dif_neg h]
      exact List.nodup_nil
  · -- cover
    intro s hs
    rw [ptInit_state_ids] at hs
    have hsn : s < procs.length := List.mem_range.mp hs
    have hglt : ptGroupOf procs trs procs[s] < (ptKeys procs trs).length :=
      ptGroupOf_lt procs trs procs[s] (List.getElem_mem _)
    rw [hbip s hsn]
    constructor
    · exact (hmemP _).mpr ⟨_, hglt, rfl⟩
    · rw [ptInit_blocks_elements]
      have hc1 : (2:Nat) ≤ 2 + ptGroupOf procs trs procs[s] := by omega
      have hc2 : (2:Nat) + ptGroupOf procs trs procs[s] <
          2 + (ptKeys procs trs).length := by omega
      rw [dif_pos ⟨hc1, hc2⟩]
      rw [List.mem_filter]
      refine ⟨hs, ?_⟩
      rw [beq_iff_eq, getElem!_pos procs s hsn]
      have harith : (ptGroupOf procs trs procs[s] : Nat) =
          2 + ptGroupOf procs trs procs[s] - 2 := by omega
      exact harith
  · -- own
    intro b hb x hxm
    obtain ⟨g, hg, rfl⟩ := (hmemP b).mp hb
    have hc1 : (2:Nat) ≤ 2 + g := by omega
    have hc2 : (2:Nat) + g < 2 + (ptKeys procs trs).length := by omega
    rw [ptInit_blocks_elements, dif_pos ⟨hc1, hc2⟩,
      List.mem_filter] at hxm
    obtain ⟨hxr, hxg⟩ := hxm
    have hxn : x < procs.length := List.mem_range.mp hxr
    rw [beq_iff_eq, getElem!_pos procs x hxn] at hxg
    rw [ptInit_state_ids]
    refine ⟨hxr, ?_⟩
    rw [hbip x hxn, hxg]
    have harith : (2:Nat) + (2 + g - 2) = 2 + g := by omega
    exact harith
  · -- att
    intro b _
    exact ptInit_blocks_attached procs trs b
  · -- fresh
    intro b hb
    obtain ⟨g, hg, rfl⟩ := (hmemP b).mp hb
    show (2:Nat) + g < 2 + (ptKeys procs trs).length
    omega
  · -- elemP
    intro b hne
    obtain ⟨bn, rfl⟩ : ∃ n : Nat, n = b := ⟨b, rfl⟩
    rw [ptInit_blocks_elements] at hne
    by_cases h : 2 ≤ bn ∧ bn < 2 + (ptKeys procs trs).length
    · have hg : bn - 2 < (ptKeys procs trs).length := by omega
      have hb2 : bn = 2 + (bn - 2) := by omega
      exact (hmemP bn).mpr ⟨bn - 2, hg, hb2⟩
    · rw [dif_neg h] at hne
      exact absurd rfl hne
  · -- InTClosed
    intro s hs tId htId
    rw [ptInit_state_ids] at hs ⊢
    have hsn : s < procs.length := List.mem_range.mp hs
    rw [ptInit_states_eq procs trs s hsn] at htId
    have htr : tId ∈ (List.range trs.length).filter
        (fun j => trs[j]!.2.2 == procs[s]) := htId
    rw [List.mem_filter] at htr
    have htn : tId < trs.length := List.mem_range.mp htr.1
    rw [ptInit_transes_eq procs trs tId htn]
    show idOf procs trs[tId].1 ∈ List.range procs.length
    rw [List.mem_range]
    unfold idOf
    exact List.indexOf_lt_length.mpr (hsrc trs[tId] (List.getElem_mem _))
  · -- ProcInj
    intro s hs t ht he
    rw [ptInit_state_ids] at hs ht
    have hsn : s < procs.length := List.mem_range.mp hs
    have htn : t < procs.length := List.mem_range.mp ht
    rw [ptInit_states_eq procs trs s hsn, ptInit_states_eq procs trs t htn]
      at he
    exact (hnd.getElem_inj_iff).mp he
  · -- a state per process
    intro p hp
    have hlt : procs.indexOf p < procs.length :=
      List.indexOf_lt_length.mpr hp
    refine ⟨procs.indexOf p, ?_, ?_⟩
    · rw [ptInit_state_ids, List.mem_range]
      exact hlt
    · rw [ptInit_states_eq procs trs _ hlt]
      exact List.getElem_indexOf hlt

/-! ### The collected relation of a valid partition is an equivalence -/

theorem foldl_append_flatMap {α β : Type} (f : α → List β) :
    ∀ (l : List α) (acc : List β),
      l.foldl (fun r b => r ++ f b) acc = acc ++ l.flatMap f := by
  intro l
  induction l with
  | nil =>
      intro acc
      simp
  | cons x xs ih =>
      intro acc
      rw [List.foldl_cons, ih, List.flatMap_cons, List.append_assoc]

theorem mem_collectRelation (pt : PaigeTarjan) (p : Process × Process) :
    p ∈ collectRelation pt ↔ ∃ b ∈ pt.p_blocks, ∃ x ∈ (pt.blocks b).elements,
      ∃ y ∈ (pt.blocks b).elements,
        p = ((pt.states x).process, (pt.states y).process) := by
  unfold collectRelation
  simp only [register_into_relation]
  rw [foldl_append_flatMap, List.nil_append, List.mem_flatMap]
  constructor
  · rintro ⟨b, hb, hp⟩
    rw [List.mem_flatMap] at hp
    obtain ⟨x, hx, hp⟩ := hp
    rw [List.mem_map] at hp
    obtain ⟨y, hy, he⟩ := hp
    exact ⟨b, hb, x, hx, y, hy, he.symm⟩
  · rintro ⟨b, hb, x, hx, y, hy, he⟩
    refine ⟨b, hb, ?_⟩
    rw [List.mem_flatMap]
    refine ⟨x, hx, ?_⟩
    rw [List.mem_map]
    exact ⟨y, hy, he.symm⟩

/-- The relation collected from a partition satisfying the invariant, with
an injective process decoration covering `procs`, is an equivalence on
`procs`. -/
theorem collectRelation_equivOn (pt : PaigeTarjan) (procs : List Process)
    (hinv : PTInv pt) (hpi : ProcInj pt)
    (hcover : ∀ p ∈ procs, ∃ s ∈ pt.state_ids, (pt.states s).process = p) :
    EquivOn procs (collectRelation pt) := by
  refine ⟨?_, ?_, ?_⟩
  · intro p hp
    obtain ⟨s, hs, hps⟩ := hcover p hp
    have hcov := hinv.cover s hs
    rw [mem_collectRelation]
    exact ⟨_, hcov.1, s, hcov.2, s, hcov.2, by rw [hps]⟩
  · intro p q h
    rw [mem_collectRelation] at h ⊢
    obtain ⟨b, hb, x, hx, y, hy, he⟩ := h
    rw [Prod.mk.injEq] at he
    refine ⟨b, hb, y, hy, x, hx, ?_⟩
    rw [Prod.mk.injEq]
    exact ⟨he.2, he.1⟩
  · intro p q r h1 h2
    rw [mem_collectRelation] at h1 h2 ⊢
    obtain ⟨b1, hb1, x1, hx1, y1, hy1, he1⟩ := h1
    obtain ⟨b2, hb2, x2, hx2, y2, hy2, he2⟩ := h2
    rw [Prod.mk.injEq] at he1 he2
    have hy1o := hinv.own b1 hb1 y1 hy1
    have hx2o := hinv.own b2 hb2 x2 hx2
    have hyx : y1 = x2 :=
      hpi y1 hy1o.1 x2 hx2o.1 (he1.2.symm.trans he2.1)
    have hb12 : b1 = b2 := by
      rw [← hy1o.2, hyx, hx2o.2]
    refine ⟨b1, hb1, x1, hx1, y2, ?_, ?_⟩
    · rw [hb12]
      exact hy2
    · rw [Prod.mk.injEq]
      exact ⟨he1.1, he2.2⟩

/-- C4: with `collect = true` the relation returned by either engine is an
equivalence over the reachable states.  Naive engine: whatever relation the
refinement loop returns from the all-pairs initial relation contains
`(s, s)` for every state `s`, is symmetric, and is transitive, provided the
transition targets are among the states.  Paige-Tarjan engine: for every
run of the refinement loop on the constructed engine (duplicate-free state
list whose transitions have live sources), the relation collected from the
final partition P contains `(p, p)` for every state process `p`, is
symmetric, and is transitive. -/
theorem c4_collected_relations_equivalence :
    (∀ (states : List Process) (ts : List Transition),
      (∀ tr ∈ ts, tr.2.2 ∈ states) →
      ∀ (fuel : Nat) (out : Relation × Nat),
        fix_loop fuel ts (init_relation states) = some out →
        EquivOn states out.1) ∧
    (∀ (procs : List Process) (trs : List Transition),
      procs.Nodup → (∀ tr ∈ trs, tr.1 ∈ procs) →
      ∀ (fuel : Nat) (out : PaigeTarjan),
        ptLoop fuel (ptInit procs trs) = some out →
        EquivOn procs (collectRelation out)) := by
  constructor
  · exact fun states ts hcl fuel out h => naive_equivOn states ts hcl fuel out h
  · intro procs trs hnd hsrc fuel out h
    obtain ⟨hinv0, hcl0, hpi0, hcov0⟩ := ptInit_spec procs trs hnd hsrc
    obtain ⟨hinv, hcl, hf⟩ := ptLoop_spec fuel _ out h hinv0 hcl0
    refine collectRelation_equivOn out procs hinv
      (procInj_of_sframe hf hpi0) ?_
    intro p hp
    obtain ⟨s, hs, hps⟩ := hcov0 p hp
    refine ⟨s, ?_, ?_⟩
    · rw [hf.1]
      exact hs
    · rw [hf.2.1 s]
      exact hps

/-- Witness for C4 on the one-state system with no transitions: both
engines return an equivalence on `[0]`. -/
theorem c4_collected_relations_equivalence_witness :
    EquivOn [Process.deadlock]
      ((fix_loop 2 [] (init_relation [Process.deadlock])).get (by rfl)).1 ∧
    EquivOn [Process.deadlock]
      (collectRelation ((ptLoop 2 (ptInit [Process.deadlock] [])).get
        (by rfl))) :=
  ⟨c4_collected_relations_equivalence.1 [Process.deadlock] []
      (fun tr htr => absurd htr (List.not_mem_nil tr)) 2 _
      (Option.some_get _).symm,
   c4_collected_relations_equivalence.2 [Process.deadlock] []
      (List.nodup_cons.mpr ⟨List.not_mem_nil _, List.nodup_nil⟩)
      (fun tr htr => absurd htr (List.not_mem_nil tr)) 2 _
      (Option.some_get _).symm⟩

end CcsSpec


